import Mathlib

/-!
Verification development for the PNS (push-and-shove router) world model:
the revision tree (`pns_revision.cpp`, corrected second half of the file),
the joint graph and node façade (`pns_node.cpp`).

Modelling conventions:
* C++ heap pointers are modelled by stable integer ids (`iid` for items,
  `Nat` keys for revisions); pointer equality is id equality.
* `boost::unordered_multimap` (the joint map) is modelled as a list of
  (tag, joint) pairs in iteration order.  The container guarantee that
  elements with equivalent keys are adjacent is maintained by inserting new
  entries adjacent to the existing run of equal tags (`insertAdj`).
* `LAYER_RANGE` and the `JOINT` member functions (`Merge`, `Link`,
  `Unlink`, `Overlaps`) live in headers that are not part of the sources;
  they are modelled from the spec where marked.
-/

namespace PNSModel

/-- Modelled from the spec: integer 2-d point (`VECTOR2I`), an external
geometry primitive.  Only equality is used by the core. -/
structure V2 where
  x : Int
  y : Int
deriving DecidableEq, Repr

/-- Modelled from the spec: `LAYER_RANGE`, an inclusive integer interval of
copper layers (external geometry primitive).  Its constructor keeps
`lo ≤ hi`. -/
structure LRange where
  lo : Int
  hi : Int
deriving DecidableEq, Repr

/-- Modelled from the spec: `LAYER_RANGE::Overlaps(int)` — the inclusive
interval contains the layer. -/
def overlapsL (r : LRange) (layer : Int) : Bool :=
  decide (r.lo ≤ layer ∧ layer ≤ r.hi)

/-- Modelled from the spec: `LAYER_RANGE::Overlaps(LAYER_RANGE)` — the two
inclusive intervals intersect. -/
def overlapsR (a b : LRange) : Bool :=
  decide (a.lo ≤ b.hi ∧ b.lo ≤ a.hi)

/-- Interval `a` lies inside interval `b`. -/
def rsub (a b : LRange) : Prop :=
  b.lo ≤ a.lo ∧ a.hi ≤ b.hi

instance (a b : LRange) : Decidable (rsub a b) := by
  unfold rsub; infer_instance

/-- A proper (non-inverted) interval, as produced by the `LAYER_RANGE`
constructor. -/
def properR (r : LRange) : Prop := r.lo ≤ r.hi

instance (r : LRange) : Decidable (properR r) := by
  unfold properR; infer_instance

/-- Modelled from the spec: the interval union of two overlapping layer
ranges used by `JOINT::Merge` (for overlapping intervals the hull is the
exact union). -/
def hullR (a b : LRange) : LRange :=
  { lo := min a.lo b.lo, hi := max a.hi b.hi }

theorem overlapsR_symm (a b : LRange) : overlapsR a b = overlapsR b a := by
  simp only [overlapsR, decide_eq_decide]
  constructor <;> exact fun h => ⟨h.2, h.1⟩

/-- Item kinds stored by the core (`ITEM::SOLID_T`, `SEGMENT_T`, `VIA_T`).
`LINE` is a transient view and never enters the index, joints or
revisions. -/
inductive ItemKind where
  | solid
  | seg
  | via
deriving DecidableEq, Repr

/-- A persistent routing item.  A flat record stands in for the C++
subclasses: `pos` is meaningful for solids and vias, `a`/`b` are the
endpoints of a segment.  `owner` is the mutable owning-revision back
pointer set by `REVISION::AddItem` (`ITEM::SetOwner`). -/
structure Item where
  iid : Nat
  kind : ItemKind
  pos : V2
  a : V2
  b : V2
  layers : LRange
  net : Int
  owner : Option Nat
deriving DecidableEq, Repr

/-- Joint hash tag (`JOINT::HASH_TAG`): position and net. -/
structure Tag where
  pos : V2
  net : Int
deriving DecidableEq, Repr

/-- Modelled from the spec: a `JOINT` — aggregation point for items sharing
(position, net) on overlapping layers; owns a non-owning link list, a
merged layer range and a locked flag. -/
structure Joint where
  tag : Tag
  layers : LRange
  links : List Item
  locked : Bool
deriving DecidableEq, Repr

/-- Modelled from the spec: `JOINT::Merge` — union of layer ranges, union
of links (the locked flags are or-ed). -/
def mergeJ (a b : Joint) : Joint :=
  { a with layers := hullR a.layers b.layers
         , links := a.links ++ b.links
         , locked := a.locked || b.locked }

/-- The joint map `JOINT_MAP` (`boost::unordered_multimap`) in iteration
order; equal tags are kept adjacent. -/
abbrev JointMap := List (Tag × Joint)

/-- NODE::FindJoint(pos, layer, net), translated line by line from
`pns_node.cpp`: take `f = m_joints.find(tag)` (the first entry whose key
is `tag`; null if none), then advance `f` towards `m_joints.end()`
returning the first entry whose layer range overlaps `layer`.  Note that
the loop tests only the layer overlap: it runs past the equal-tag range of
the multimap. -/
def FindJointM (m : JointMap) (pos : V2) (layer : Int) (net : Int) : Option Joint :=
  ((m.dropWhile (fun e => e.1 != (⟨pos, net⟩ : Tag))).find?
    (fun e => overlapsL e.2.layers layer)).map (fun e => e.2)

section C5Data

/-- Concrete joint map exhibiting the FindJoint tag bug: one joint with
tag ((0,0), net 1) on layers [0,0], followed in iteration order by a
joint with tag ((9,9), net 2) on layers [5,5]. -/
def c5jA : Joint := ⟨⟨⟨0, 0⟩, 1⟩, ⟨0, 0⟩, [], false⟩

def c5jB : Joint := ⟨⟨⟨9, 9⟩, 2⟩, ⟨5, 5⟩, [], false⟩

def c5map : JointMap := [(c5jA.tag, c5jA), (c5jB.tag, c5jB)]

end C5Data

/-- C5: the claim states that `FindJoint(pos, layer, net)` returns null
when no joint with tag (pos, net) has a layer range containing `layer`,
and never returns a joint with a different (position, net) tag.  The code
violates this: on `c5map`, no joint with tag ((0,0), net 1) contains layer
5, yet the query returns the joint tagged ((9,9), net 2), because the scan
starting at `find(tag)` walks past the equal-tag range of the multimap to
the end of the map, testing only the layer overlap. -/
theorem findJoint_wrong_tag_bug :
    FindJointM c5map ⟨0, 0⟩ 5 1 = some c5jB
    ∧ c5jB.tag ≠ ⟨⟨0, 0⟩, 1⟩
    ∧ (∀ e ∈ c5map, e.1 = (⟨⟨0, 0⟩, 1⟩ : Tag) → overlapsL e.2.layers 5 = false) := by
  refine ⟨by decide, by decide, by decide⟩

/-! ### touchJoint and the joint-map mutators (`pns_node.cpp`) -/

/-- The scan predicate of the touchJoint merge loop: an entry with the
candidate's tag whose layer range overlaps the candidate's ORIGINAL layer
argument (the code tests `aLayers.Overlaps(f->second.Layers())`). -/
def touchPred (tag : Tag) (aL : LRange) (e : Tag × Joint) : Bool :=
  e.1 == tag && overlapsR aL e.2.layers

theorem eraseP_length_lt {p : α → Bool} {m : List α} {e : α}
    (h : m.find? p = some e) : (m.eraseP p).length < m.length := by
  induction m with
  | nil => simp [List.find?] at h
  | cons x xs ih =>
    by_cases hx : p x
    · simp [List.eraseP_cons, hx]
    · rw [List.find?_cons_of_neg _ hx] at h
      simp only [List.eraseP_cons, hx, Bool.false_eq_true, if_false, List.length_cons]
      exact Nat.succ_lt_succ (ih h)

/-- NODE::touchJoint's do-while merge loop, fuel-indexed: repeatedly find
an existing entry with the candidate's tag that overlaps `aL`, merge it
into the candidate and erase it from the map, until none is found.  Each
iteration of the C++ loop erases one entry, so the loop performs at most
`m.length` merge steps; the fuel makes that termination argument a
structural recursion. -/
def touchLoopF (fuel : Nat) (tag : Tag) (aL : LRange) (jt : Joint) (m : JointMap) :
    Joint × JointMap :=
  match fuel with
  | 0 => (jt, m)
  | fuel + 1 =>
    match m.find? (touchPred tag aL) with
    | none => (jt, m)
    | some e => touchLoopF fuel tag aL (mergeJ jt e.2) (m.eraseP (touchPred tag aL))

/-- The touchJoint merge loop with its exact fuel bound.  Returns the
merged candidate and the map with the merged entries erased (the insertion
of the candidate is performed by the callers below, which first apply
their in-place modification — `Link`, `Unlink` or `Lock` — to the
freshly inserted joint). -/
def touchLoop (tag : Tag) (aL : LRange) (jt : Joint) (m : JointMap) : Joint × JointMap :=
  touchLoopF (m.length + 1) tag aL jt m

/-- Insert an entry at the end of the (contiguous) run of equal tags that
starts at the head. -/
def insertRun (tag : Tag) (jt : Joint) : JointMap → JointMap
  | [] => [(tag, jt)]
  | e :: rest =>
    if e.1 = tag then e :: insertRun tag jt rest
    else (tag, jt) :: e :: rest

/-- Multimap insertion: place the new entry adjacent to the existing run
of entries with the same tag (the `unordered_multimap` iteration-order
guarantee), or at the end if the tag is new. -/
def insertAdj (tag : Tag) (jt : Joint) : JointMap → JointMap
  | [] => [(tag, jt)]
  | e :: rest =>
    if e.1 = tag then e :: insertRun tag jt rest
    else e :: insertAdj tag jt rest

/-- NODE::touchJoint without the final insertion: the candidate joint
(pos, layers, net) merged with all overlapping same-tag joints, paired
with the map from which those joints were erased. -/
def touchJointM (pos : V2) (aL : LRange) (net : Int) (m : JointMap) : Joint × JointMap :=
  touchLoop ⟨pos, net⟩ aL ⟨⟨pos, net⟩, aL, [], false⟩ m

/-- NODE::linkJoint: touch the joint, then `jt.Link(aWhere)` (append the
item to the freshly inserted joint's link list). -/
def linkJointM (pos : V2) (aL : LRange) (net : Int) (it : Item) (m : JointMap) : JointMap :=
  let r := touchJointM pos aL net m
  insertAdj ⟨pos, net⟩ { r.1 with links := r.1.links ++ [it] } r.2

/-- NODE::unlinkJoint: touch the joint, then `jt.Unlink(aWhere)` (remove
the first link whose pointer — modelled by `iid` — matches). -/
def unlinkJointM (pos : V2) (aL : LRange) (net : Int) (it : Item) (m : JointMap) : JointMap :=
  let r := touchJointM pos aL net m
  insertAdj ⟨pos, net⟩ { r.1 with links := r.1.links.eraseP (fun x => x.iid == it.iid) } r.2

/-- NODE::LockJoint: touch the joint at (pos, item.Layers, item.Net), then
set its locked flag. -/
def lockJointM (pos : V2) (aL : LRange) (net : Int) (lk : Bool) (m : JointMap) : JointMap :=
  let r := touchJointM pos aL net m
  insertAdj ⟨pos, net⟩ { r.1 with locked := lk } r.2

/-- The erase loop of NODE::removeViaIndex, fuel-indexed: repeatedly scan
the equal-tag range for a joint whose layer range overlaps the via's
(`aVia->LayersOverlap(&f->second)`), erasing it, until no overlap
remains.  Each iteration erases one entry. -/
def eraseViaLoopF (fuel : Nat) (tag : Tag) (vL : LRange) (m : JointMap) : JointMap :=
  match fuel with
  | 0 => m
  | fuel + 1 =>
    match m.find? (touchPred tag vL) with
    | none => m
    | some _ => eraseViaLoopF fuel tag vL (m.eraseP (touchPred tag vL))

/-- The removeViaIndex erase loop with its exact fuel bound. -/
def eraseViaLoop (tag : Tag) (vL : LRange) (m : JointMap) : JointMap :=
  eraseViaLoopF (m.length + 1) tag vL m

/-- The link list captured by removeViaIndex from
`FindJoint(p, vLayers.Start(), net)` (empty if the lookup fails, which is
undefined behaviour in the C++). -/
def viaLinks (m : JointMap) (v : Item) : List Item :=
  match FindJointM m v.pos v.layers.lo v.net with
  | some jt => jt.links
  | none => []

/-- NODE::removeViaIndex, joint-map part: capture the via joint's link
list, erase every joint with the via's tag whose layer range overlaps the
via's, then re-link every captured item other than the via under the
via's position and net but the item's own layer range. -/
def removeViaJoints (m : JointMap) (v : Item) : JointMap :=
  let links := viaLinks m v
  let m1 := eraseViaLoop ⟨v.pos, v.net⟩ v.layers m
  links.foldl (fun mm it => if it.iid = v.iid then mm else linkJointM v.pos it.layers v.net it mm) m1

/-- Joint-graph operations of the node façade, as listed by the
disjointness claim: linkJoint, unlinkJoint, LockJoint and the joint-map
parts of adding/removing solids, segments and vias
(addSolidIndex/addSegmentIndex/addViaIndex and their remove
counterparts). -/
inductive JOp where
  | link (pos : V2) (aL : LRange) (net : Int) (it : Item)
  | unlink (pos : V2) (aL : LRange) (net : Int) (it : Item)
  | lock (pos : V2) (it : Item) (lk : Bool)
  | addSolid (it : Item)
  | addSeg (it : Item)
  | addVia (it : Item)
  | remSolid (it : Item)
  | remSeg (it : Item)
  | remVia (it : Item)
deriving DecidableEq, Repr

/-- One joint-graph operation, dispatched exactly as in `pns_node.cpp`
(segments link/unlink at both endpoints, solids and vias at their
position; via removal goes through `removeViaJoints`). -/
def stepJ (m : JointMap) : JOp → JointMap
  | .link pos aL net it => linkJointM pos aL net it m
  | .unlink pos aL net it => unlinkJointM pos aL net it m
  | .lock pos it lk => lockJointM pos it.layers it.net lk m
  | .addSolid it => linkJointM it.pos it.layers it.net it m
  | .addSeg it => linkJointM it.b it.layers it.net it (linkJointM it.a it.layers it.net it m)
  | .addVia it => linkJointM it.pos it.layers it.net it m
  | .remSolid it => unlinkJointM it.pos it.layers it.net it m
  | .remSeg it => unlinkJointM it.b it.layers it.net it (unlinkJointM it.a it.layers it.net it m)
  | .remVia it => removeViaJoints m it

/-- Run a sequence of joint-graph operations from the empty joint map. -/
def runJ (ops : List JOp) : JointMap :=
  ops.foldl stepJ []

/-- I2, joint disjointness: any two entries of the map carrying the same
tag have non-overlapping layer ranges. -/
def sameTagDisjoint (m : JointMap) : Prop :=
  m.Pairwise (fun e1 e2 => e1.1 = e2.1 → overlapsR e1.2.layers e2.2.layers = false)

/-- Every joint in the map has a proper (non-inverted) layer range. -/
def properMap (m : JointMap) : Prop :=
  ∀ e ∈ m, properR e.2.layers

/-- Every item linked from a joint has a proper layer range. -/
def linksProper (m : JointMap) : Prop :=
  ∀ e ∈ m, ∀ x ∈ e.2.links, properR x.layers

/-- An operation is proper when the layer ranges it supplies (explicit
arguments and item layer ranges) are non-inverted, as the `LAYER_RANGE`
constructor guarantees. -/
def JOp.properOp : JOp → Prop
  | .link _ aL _ it => properR aL ∧ properR it.layers
  | .unlink _ aL _ it => properR aL ∧ properR it.layers
  | .lock _ it _ => properR it.layers
  | .addSolid it => properR it.layers
  | .addSeg it => properR it.layers
  | .addVia it => properR it.layers
  | .remSolid it => properR it.layers
  | .remSeg it => properR it.layers
  | .remVia it => properR it.layers

/-- All operations of a run are proper. -/
def opsProper (ops : List JOp) : Prop :=
  ∀ op ∈ ops, op.properOp

/-! ### List auxiliaries -/

theorem mem_eraseP_or_found {p : α → Bool} {m : List α} {e : α} (he : e ∈ m) :
    e ∈ m.eraseP p ∨ m.find? p = some e := by
  induction m with
  | nil => cases he
  | cons x xs ih =>
    by_cases hx : p x
    · rcases List.mem_cons.mp he with rfl | hxs
      · right; exact List.find?_cons_of_pos _ hx
      · left; simpa [List.eraseP_cons, hx] using hxs
    · rcases List.mem_cons.mp he with rfl | hxs
      · left; simp [List.eraseP_cons, hx]
      · rcases ih hxs with h1 | h2
        · left; simp [List.eraseP_cons, hx, h1]
        · right; rw [List.find?_cons_of_neg _ hx]; exact h2

theorem mem_eraseP_of_not {p : α → Bool} {m : List α} {e : α}
    (he : e ∈ m) (hp : p e = false) : e ∈ m.eraseP p := by
  induction m with
  | nil => cases he
  | cons x xs ih =>
    by_cases hx : p x
    · rcases List.mem_cons.mp he with rfl | hxs
      · rw [hx] at hp; cases hp
      · simpa [List.eraseP_cons, hx] using hxs
    · rcases List.mem_cons.mp he with rfl | hxs
      · simp [List.eraseP_cons, hx]
      · simp [List.eraseP_cons, hx, ih hxs]

theorem mem_insertRun (tag : Tag) (jt : Joint) :
    ∀ (m : JointMap) (x : Tag × Joint),
      x ∈ insertRun tag jt m ↔ x = (tag, jt) ∨ x ∈ m := by
  intro m
  induction m with
  | nil => intro x; simp [insertRun]
  | cons e rest ih =>
    intro x
    by_cases he : e.1 = tag
    · simp only [insertRun, he, if_true, List.mem_cons, ih x]
      tauto
    · simp only [insertRun, he, if_false, List.mem_cons]

theorem mem_insertAdj (tag : Tag) (jt : Joint) :
    ∀ (m : JointMap) (x : Tag × Joint),
      x ∈ insertAdj tag jt m ↔ x = (tag, jt) ∨ x ∈ m := by
  intro m
  induction m with
  | nil => intro x; simp [insertAdj]
  | cons e rest ih =>
    intro x
    by_cases he : e.1 = tag
    · simp only [insertAdj, he, if_true, List.mem_cons, mem_insertRun]
      tauto
    · simp only [insertAdj, he, if_false, List.mem_cons, ih x]
      tauto

theorem pairwise_insertRun {R : (Tag × Joint) → (Tag × Joint) → Prop}
    (tag : Tag) (jt : Joint) :
    ∀ (m : JointMap), m.Pairwise R →
      (∀ e ∈ m, R e (tag, jt) ∧ R (tag, jt) e) →
      (insertRun tag jt m).Pairwise R := by
  intro m
  induction m with
  | nil => intro _ _; simpa [insertRun] using List.Pairwise.nil
  | cons e rest ih =>
    intro hp hcross
    rcases List.pairwise_cons.mp hp with ⟨hhead, hrest⟩
    by_cases he : e.1 = tag
    · simp only [insertRun, he, if_true]
      refine List.pairwise_cons.mpr ⟨?_, ?_⟩
      · intro y hy
        rcases (mem_insertRun tag jt rest y).mp hy with rfl | hy'
        · exact (hcross e (List.mem_cons_self e rest)).1
        · exact hhead y hy'
      · exact ih hrest (fun z hz => hcross z (List.mem_cons_of_mem e hz))
    · simp only [insertRun, he, if_false]
      refine List.pairwise_cons.mpr ⟨?_, List.pairwise_cons.mpr ⟨hhead, hrest⟩⟩
      intro y hy
      exact (hcross y hy).2

theorem pairwise_insertAdj {R : (Tag × Joint) → (Tag × Joint) → Prop}
    (tag : Tag) (jt : Joint) :
    ∀ (m : JointMap), m.Pairwise R →
      (∀ e ∈ m, R e (tag, jt) ∧ R (tag, jt) e) →
      (insertAdj tag jt m).Pairwise R := by
  intro m
  induction m with
  | nil => intro _ _; simpa [insertAdj] using List.Pairwise.nil
  | cons e rest ih =>
    intro hp hcross
    rcases List.pairwise_cons.mp hp with ⟨hhead, hrest⟩
    by_cases he : e.1 = tag
    · simp only [insertAdj, he, if_true]
      refine List.pairwise_cons.mpr ⟨?_, ?_⟩
      · intro y hy
        rcases (mem_insertRun tag jt rest y).mp hy with rfl | hy'
        · exact (hcross e (List.mem_cons_self e rest)).1
        · exact hhead y hy'
      · exact pairwise_insertRun tag jt rest hrest
          (fun z hz => hcross z (List.mem_cons_of_mem e hz))
    · simp only [insertAdj, he, if_false]
      refine List.pairwise_cons.mpr ⟨?_, ih hrest
        (fun z hz => hcross z (List.mem_cons_of_mem e hz))⟩
      intro y hy
      rcases (mem_insertAdj tag jt rest y).mp hy with rfl | hy'
      · exact (hcross e (List.mem_cons_self e rest)).1
      · exact hhead y hy'

/-! ### Properties of the touchJoint merge loop -/

theorem touchLoopF_sublist (tag : Tag) (aL : LRange) :
    ∀ (fuel : Nat) (jt : Joint) (m : JointMap),
      ((touchLoopF fuel tag aL jt m).2).Sublist m := by
  intro fuel
  induction fuel with
  | zero => intro jt m; exact List.Sublist.refl m
  | succ fuel ih =>
    intro jt m
    cases h : m.find? (touchPred tag aL) with
    | none => simp only [touchLoopF, h]; exact List.Sublist.refl m
    | some e =>
      simp only [touchLoopF, h]
      exact (ih _ _).trans (List.eraseP_sublist m)

theorem touchLoopF_post (tag : Tag) (aL : LRange) :
    ∀ (fuel : Nat) (jt : Joint) (m : JointMap), m.length < fuel →
      ((touchLoopF fuel tag aL jt m).2).find? (touchPred tag aL) = none := by
  intro fuel
  induction fuel with
  | zero => intro jt m hf; exact absurd hf (Nat.not_lt_zero _)
  | succ fuel ih =>
    intro jt m hf
    cases h : m.find? (touchPred tag aL) with
    | none => simpa only [touchLoopF, h] using h
    | some e =>
      simp only [touchLoopF, h]
      refine ih _ _ ?_
      have h1 := eraseP_length_lt h
      omega

theorem touchLoopF_mono (tag : Tag) (aL : LRange) :
    ∀ (fuel : Nat) (jt : Joint) (m : JointMap),
      (touchLoopF fuel tag aL jt m).1.layers.lo ≤ jt.layers.lo
      ∧ jt.layers.hi ≤ (touchLoopF fuel tag aL jt m).1.layers.hi
      ∧ ∀ x ∈ jt.links, x ∈ (touchLoopF fuel tag aL jt m).1.links := by
  intro fuel
  induction fuel with
  | zero => intro jt m; exact ⟨le_refl _, le_refl _, fun x hx => hx⟩
  | succ fuel ih =>
    intro jt m
    cases h : m.find? (touchPred tag aL) with
    | none =>
      simp only [touchLoopF, h]
      exact ⟨le_refl _, le_refl _, fun x hx => hx⟩
    | some e =>
      simp only [touchLoopF, h]
      have ihm := ih (mergeJ jt e.2) (m.eraseP (touchPred tag aL))
      refine ⟨le_trans ihm.1 ?_, le_trans ?_ ihm.2.1, fun x hx => ?_⟩
      · simp [mergeJ, hullR]
      · simp [mergeJ, hullR]
      · exact ihm.2.2 x (by simp [mergeJ, hx])

theorem touchLoopF_links_origin (tag : Tag) (aL : LRange) :
    ∀ (fuel : Nat) (jt : Joint) (m : JointMap),
      ∀ x ∈ (touchLoopF fuel tag aL jt m).1.links,
        x ∈ jt.links ∨ ∃ e ∈ m, x ∈ e.2.links := by
  intro fuel
  induction fuel with
  | zero => intro jt m x hx; exact Or.inl hx
  | succ fuel ih =>
    intro jt m
    cases h : m.find? (touchPred tag aL) with
    | none => simp only [touchLoopF, h]; exact fun x hx => Or.inl hx
    | some e =>
      simp only [touchLoopF, h]
      intro x hx
      rcases ih _ _ x hx with hj | ⟨e', he', hx'⟩
      · rcases List.mem_append.mp (by simpa [mergeJ] using hj) with h1 | h2
        · exact Or.inl h1
        · exact Or.inr ⟨e, List.mem_of_find?_eq_some h, h2⟩
      · exact Or.inr ⟨e', (List.eraseP_sublist m).subset he', hx'⟩

theorem touchLoopF_proper (tag : Tag) (aL : LRange) :
    ∀ (fuel : Nat) (jt : Joint) (m : JointMap),
      properR jt.layers → properMap m → properR (touchLoopF fuel tag aL jt m).1.layers := by
  intro fuel
  induction fuel with
  | zero => intro jt m hj _; exact hj
  | succ fuel ih =>
    intro jt m hj hm
    cases h : m.find? (touchPred tag aL) with
    | none => simpa only [touchLoopF, h] using hj
    | some e =>
      simp only [touchLoopF, h]
      refine ih _ _ ?_ (fun e' he' => hm e' ((List.eraseP_sublist m).subset he'))
      have he : properR e.2.layers := hm e (List.mem_of_find?_eq_some h)
      simp only [properR, mergeJ, hullR] at *
      omega

theorem touchLoopF_merged (tag : Tag) (aL : LRange) :
    ∀ (fuel : Nat) (jt : Joint) (m : JointMap), m.length < fuel →
      ∀ e ∈ m, touchPred tag aL e = true →
        (∀ x ∈ e.2.links, x ∈ (touchLoopF fuel tag aL jt m).1.links)
        ∧ rsub e.2.layers (touchLoopF fuel tag aL jt m).1.layers := by
  intro fuel
  induction fuel with
  | zero => intro jt m hf; exact absurd hf (Nat.not_lt_zero _)
  | succ fuel ih =>
    intro jt m hf e he hp
    cases h : m.find? (touchPred tag aL) with
    | none => exact absurd hp (by simpa using List.find?_eq_none.mp h e he)
    | some e0 =>
      have hlen : (m.eraseP (touchPred tag aL)).length < fuel := by
        have h1 := eraseP_length_lt h
        omega
      rcases mem_eraseP_or_found (p := touchPred tag aL) he with hin | hfound
      · simp only [touchLoopF, h]
        exact ih _ _ hlen e hin hp
      · have he0 : e = e0 := by rw [hfound] at h; exact Option.some.inj h
        subst he0
        simp only [touchLoopF, h]
        have hmono := touchLoopF_mono tag aL fuel (mergeJ jt e.2) (m.eraseP (touchPred tag aL))
        refine ⟨fun x hx => hmono.2.2 x (by simp [mergeJ, hx]), ?_, ?_⟩
        · exact le_trans hmono.1 (by simp [mergeJ, hullR])
        · exact le_trans (by simp [mergeJ, hullR]) hmono.2.1

theorem touchLoopF_survives (tag : Tag) (aL : LRange) :
    ∀ (fuel : Nat) (jt : Joint) (m : JointMap),
      ∀ e ∈ m, touchPred tag aL e = false → e ∈ (touchLoopF fuel tag aL jt m).2 := by
  intro fuel
  induction fuel with
  | zero => intro jt m e he _; exact he
  | succ fuel ih =>
    intro jt m e he hp
    cases h : m.find? (touchPred tag aL) with
    | none => simpa only [touchLoopF, h] using he
    | some e0 =>
      simp only [touchLoopF, h]
      exact ih _ _ e (mem_eraseP_of_not he hp) hp

theorem sameTagDisjoint_symm :
    Symmetric (fun (e1 e2 : Tag × Joint) =>
      e1.1 = e2.1 → overlapsR e1.2.layers e2.2.layers = false) := by
  intro a b hab hba
  rw [overlapsR_symm]
  exact hab hba.symm

/-- Core transfer property of the merge loop: under the disjointness
invariant, any remaining same-tag joint that overlaps the merged
candidate's (grown) layer range already overlapped the original layer
argument — so the loop's exit condition really leaves the candidate
disjoint from all remaining same-tag joints. -/
theorem touchLoopF_transfer (tag : Tag) (aL : LRange) :
    ∀ (fuel : Nat) (jt : Joint) (m : JointMap),
      sameTagDisjoint m → properMap m →
      rsub aL jt.layers →
      (∀ e ∈ m, e.1 = tag → overlapsR jt.layers e.2.layers = true →
        overlapsR aL e.2.layers = true) →
      ∀ e ∈ (touchLoopF fuel tag aL jt m).2, e.1 = tag →
        overlapsR (touchLoopF fuel tag aL jt m).1.layers e.2.layers = true →
        overlapsR aL e.2.layers = true := by
  intro fuel
  induction fuel with
  | zero => intro jt m _ _ _ htr e he htag hov; exact htr e he htag hov
  | succ fuel ih =>
    intro jt m hwf hpm hsub htr e he htag hov
    cases h : m.find? (touchPred tag aL) with
    | none =>
      simp only [touchLoopF, h] at he hov
      exact htr e he htag hov
    | some e0 =>
      have he0m : e0 ∈ m := List.mem_of_find?_eq_some h
      have hp0 : touchPred tag aL e0 = true := List.find?_some h
      have h0both : e0.1 = tag ∧ overlapsR aL e0.2.layers = true := by
        simpa only [touchPred, Bool.and_eq_true, beq_iff_eq] using hp0
      have h0tag : e0.1 = tag := h0both.1
      have h0ov : overlapsR aL e0.2.layers = true := h0both.2
      simp only [touchLoopF, h] at he hov
      refine ih _ _ ?_ ?_ ?_ ?_ e he htag hov
      · exact List.Pairwise.sublist (List.eraseP_sublist m) hwf
      · exact fun e' he' => hpm e' ((List.eraseP_sublist m).subset he')
      · refine ⟨le_trans ?_ hsub.1, le_trans hsub.2 ?_⟩ <;> simp [mergeJ, hullR]
      · intro e' he' htag' hov'
        have he'm : e' ∈ m := (List.eraseP_sublist m).subset he'
        by_cases hje : overlapsR jt.layers e'.2.layers = true
        · exact htr e' he'm htag' hje
        · by_cases heq : e' = e0
          · subst heq; exact h0ov
          · have hdisj : overlapsR e0.2.layers e'.2.layers = false := by
              have := hwf.forall sameTagDisjoint_symm he0m he'm
                (fun hcontra => heq hcontra.symm)
              exact this (h0tag.trans htag'.symm)
            have hp' : properR e'.2.layers := hpm e' he'm
            simp only [overlapsR, mergeJ, hullR, decide_eq_true_eq,
              decide_eq_false_iff_not, not_and] at hje hov' hdisj h0ov ⊢
            simp only [rsub] at hsub
            simp only [properR] at hp'
            constructor <;> omega

/-! ### The joint-map invariant through every mutator -/

/-- Combined well-formedness of a joint map: same-tag joints pairwise
disjoint, all joint ranges proper, all linked items' ranges proper. -/
def jinv (m : JointMap) : Prop :=
  sameTagDisjoint m ∧ properMap m ∧ linksProper m

theorem jinv_sublist {l m : JointMap} (h : l.Sublist m) (hm : jinv m) : jinv l :=
  ⟨List.Pairwise.sublist h hm.1,
   fun e he => hm.2.1 e (h.subset he),
   fun e he => hm.2.2 e (h.subset he)⟩

/-- After the merge loop, no remaining same-tag joint overlaps the merged
candidate's layer range (under the disjointness invariant). -/
theorem touch_no_overlap (pos : V2) (aL : LRange) (net : Int) (m : JointMap)
    (hwf : sameTagDisjoint m) (hpm : properMap m) :
    ∀ e ∈ (touchJointM pos aL net m).2, e.1 = (⟨pos, net⟩ : Tag) →
      overlapsR (touchJointM pos aL net m).1.layers e.2.layers = false := by
  intro e he htag
  by_cases hov : overlapsR (touchJointM pos aL net m).1.layers e.2.layers = true
  · have htr := touchLoopF_transfer ⟨pos, net⟩ aL (m.length + 1)
      ⟨⟨pos, net⟩, aL, [], false⟩ m hwf hpm ⟨le_refl _, le_refl _⟩
      (fun e' _ _ hov' => hov') e he htag hov
    have hpost := touchLoopF_post ⟨pos, net⟩ aL (m.length + 1)
      ⟨⟨pos, net⟩, aL, [], false⟩ m (Nat.lt_succ_self _)
    have := List.find?_eq_none.mp hpost e he
    simp only [touchPred, Bool.and_eq_true, beq_iff_eq, not_and] at this
    exact absurd htr (by simpa using this htag)
  · simpa using hov

theorem touch_final_proper (pos : V2) (aL : LRange) (net : Int) (m : JointMap)
    (hpa : properR aL) (hpm : properMap m) :
    properR (touchJointM pos aL net m).1.layers :=
  touchLoopF_proper ⟨pos, net⟩ aL (m.length + 1) ⟨⟨pos, net⟩, aL, [], false⟩ m hpa hpm

theorem touch_links_proper (pos : V2) (aL : LRange) (net : Int) (m : JointMap)
    (hlp : linksProper m) :
    ∀ x ∈ (touchJointM pos aL net m).1.links, properR x.layers := by
  intro x hx
  rcases touchLoopF_links_origin ⟨pos, net⟩ aL (m.length + 1)
      ⟨⟨pos, net⟩, aL, [], false⟩ m x hx with h0 | ⟨e, he, hx'⟩
  · cases h0
  · exact hlp e he x hx'

/-- Inserting the merged candidate (with any in-place modification that
keeps its layer range) preserves the full joint-map invariant. -/
theorem jinv_touchInsert (pos : V2) (aL : LRange) (net : Int) (m : JointMap)
    (j' : Joint) (hinv : jinv m) (hpa : properR aL)
    (hl : j'.layers = (touchJointM pos aL net m).1.layers)
    (hlinks : ∀ x ∈ j'.links, properR x.layers) :
    jinv (insertAdj ⟨pos, net⟩ j' (touchJointM pos aL net m).2) := by
  have hsub : ((touchJointM pos aL net m).2).Sublist m :=
    touchLoopF_sublist ⟨pos, net⟩ aL (m.length + 1) ⟨⟨pos, net⟩, aL, [], false⟩ m
  have hrest : jinv (touchJointM pos aL net m).2 := jinv_sublist hsub hinv
  refine ⟨?_, ?_, ?_⟩
  · refine pairwise_insertAdj ⟨pos, net⟩ j' _ hrest.1 ?_
    intro e he
    have hdis : e.1 = (⟨pos, net⟩ : Tag) →
        overlapsR (touchJointM pos aL net m).1.layers e.2.layers = false :=
      touch_no_overlap pos aL net m hinv.1 hinv.2.1 e he
    constructor
    · intro htag
      rw [hl, overlapsR_symm]
      exact hdis htag
    · intro htag
      rw [hl]
      exact hdis htag.symm
  · intro e he
    rcases (mem_insertAdj ⟨pos, net⟩ j' _ e).mp he with rfl | he'
    · simpa [hl] using touch_final_proper pos aL net m hpa hinv.2.1
    · exact hrest.2.1 e he'
  · intro e he x hx
    rcases (mem_insertAdj ⟨pos, net⟩ j' _ e).mp he with rfl | he'
    · exact hlinks x hx
    · exact hrest.2.2 e he' x hx

theorem jinv_linkJointM (pos : V2) (aL : LRange) (net : Int) (it : Item)
    (m : JointMap) (hinv : jinv m) (hpa : properR aL) (hit : properR it.layers) :
    jinv (linkJointM pos aL net it m) := by
  refine jinv_touchInsert pos aL net m _ hinv hpa rfl ?_
  intro x hx
  rcases List.mem_append.mp hx with h1 | h2
  · exact touch_links_proper pos aL net m hinv.2.2 x h1
  · rcases List.mem_singleton.mp h2 with rfl
    exact hit

theorem jinv_unlinkJointM (pos : V2) (aL : LRange) (net : Int) (it : Item)
    (m : JointMap) (hinv : jinv m) (hpa : properR aL) :
    jinv (unlinkJointM pos aL net it m) := by
  refine jinv_touchInsert pos aL net m _ hinv hpa rfl ?_
  intro x hx
  exact touch_links_proper pos aL net m hinv.2.2 x ((List.eraseP_sublist _).subset hx)

theorem jinv_lockJointM (pos : V2) (aL : LRange) (net : Int) (lk : Bool)
    (m : JointMap) (hinv : jinv m) (hpa : properR aL) :
    jinv (lockJointM pos aL net lk m) := by
  refine jinv_touchInsert pos aL net m _ hinv hpa rfl ?_
  intro x hx
  exact touch_links_proper pos aL net m hinv.2.2 x hx

theorem eraseViaLoopF_sublist (tag : Tag) (vL : LRange) :
    ∀ (fuel : Nat) (m : JointMap), (eraseViaLoopF fuel tag vL m).Sublist m := by
  intro fuel
  induction fuel with
  | zero => intro m; exact List.Sublist.refl m
  | succ fuel ih =>
    intro m
    cases h : m.find? (touchPred tag vL) with
    | none => simp only [eraseViaLoopF, h]; exact List.Sublist.refl m
    | some e =>
      simp only [eraseViaLoopF, h]
      exact (ih _).trans (List.eraseP_sublist m)

theorem FindJointM_mem {m : JointMap} {pos : V2} {layer : Int} {net : Int}
    {j : Joint} (h : FindJointM m pos layer net = some j) :
    ∃ e ∈ m, e.2 = j := by
  unfold FindJointM at h
  cases hf : (m.dropWhile (fun e => e.1 != (⟨pos, net⟩ : Tag))).find?
      (fun e => overlapsL e.2.layers layer) with
  | none => rw [hf] at h; cases h
  | some e =>
    rw [hf] at h
    refine ⟨e, ?_, Option.some.inj h⟩
    exact (List.dropWhile_sublist _).subset (List.mem_of_find?_eq_some hf)

theorem jinv_relink_fold (v : Item) :
    ∀ (links : List Item) (mm : JointMap), jinv mm →
      (∀ x ∈ links, properR x.layers) →
      jinv (links.foldl
        (fun mm it => if it.iid = v.iid then mm else linkJointM v.pos it.layers v.net it mm) mm) := by
  intro links
  induction links with
  | nil => intro mm h _; exact h
  | cons x xs ih =>
    intro mm h hp
    simp only [List.foldl_cons]
    by_cases hx : x.iid = v.iid
    · simp only [hx, if_true]
      exact ih mm h (fun y hy => hp y (List.mem_cons_of_mem x hy))
    · simp only [hx, if_false]
      refine ih _ ?_ (fun y hy => hp y (List.mem_cons_of_mem x hy))
      exact jinv_linkJointM v.pos x.layers v.net x mm h
        (hp x (List.mem_cons_self x xs)) (hp x (List.mem_cons_self x xs))

theorem jinv_removeViaJoints (m : JointMap) (v : Item) (hinv : jinv m) :
    jinv (removeViaJoints m v) := by
  unfold removeViaJoints
  refine jinv_relink_fold v _ _ ?_ ?_
  · exact jinv_sublist (eraseViaLoopF_sublist ⟨v.pos, v.net⟩ v.layers (m.length + 1) m) hinv
  · intro x hx
    unfold viaLinks at hx
    cases hF : FindJointM m v.pos v.layers.lo v.net with
    | none => rw [hF] at hx; cases hx
    | some jt =>
      rw [hF] at hx
      obtain ⟨e, he, he2⟩ := FindJointM_mem hF
      exact hinv.2.2 e he x (he2 ▸ hx)

theorem jinv_stepJ (m : JointMap) (op : JOp) (hinv : jinv m) (hop : op.properOp) :
    jinv (stepJ m op) := by
  cases op with
  | link pos aL net it => exact jinv_linkJointM pos aL net it m hinv hop.1 hop.2
  | unlink pos aL net it => exact jinv_unlinkJointM pos aL net it m hinv hop.1
  | lock pos it lk => exact jinv_lockJointM pos it.layers it.net lk m hinv hop
  | addSolid it => exact jinv_linkJointM it.pos it.layers it.net it m hinv hop hop
  | addSeg it =>
    exact jinv_linkJointM it.b it.layers it.net it _
      (jinv_linkJointM it.a it.layers it.net it m hinv hop hop) hop hop
  | addVia it => exact jinv_linkJointM it.pos it.layers it.net it m hinv hop hop
  | remSolid it => exact jinv_unlinkJointM it.pos it.layers it.net it m hinv hop
  | remSeg it =>
    exact jinv_unlinkJointM it.b it.layers it.net it _
      (jinv_unlinkJointM it.a it.layers it.net it m hinv hop) hop
  | remVia it => exact jinv_removeViaJoints m it hinv

theorem jinv_runJ_from : ∀ (ops : List JOp) (m : JointMap), jinv m →
    (∀ op ∈ ops, op.properOp) → jinv (ops.foldl stepJ m) := by
  intro ops
  induction ops with
  | nil => intro m h _; exact h
  | cons op rest ih =>
    intro m h hops
    simp only [List.foldl_cons]
    exact ih _ (jinv_stepJ m op h (hops op (List.mem_cons_self op rest)))
      (fun o ho => hops o (List.mem_cons_of_mem op ho))

theorem jinv_empty : jinv [] :=
  ⟨List.Pairwise.nil, fun e he => absurd he (List.not_mem_nil e), fun e he => absurd he (List.not_mem_nil e)⟩

instance : DecidablePred JOp.properOp := fun op => by
  cases op <;> (unfold JOp.properOp; infer_instance)

instance (ops : List JOp) : Decidable (opsProper ops) :=
  List.decidableBAll _ ops

instance (m : JointMap) : Decidable (sameTagDisjoint m) := by
  unfold sameTagDisjoint; infer_instance

instance (m : JointMap) : Decidable (properMap m) := by
  unfold properMap; infer_instance

/-- C6: joint disjointness invariant.  (i) For every sequence of node
joint-graph operations (linkJoint, unlinkJoint, LockJoint, add/remove of
solids, segments and vias, with the proper layer ranges the `LAYER_RANGE`
constructor guarantees) run from the empty map, the joints stored under
any (position, net) tag have pairwise-disjoint layer ranges.  (ii)
touchJoint merges every existing overlapping same-tag joint into the
candidate before inserting it — such a joint's links all end in the
candidate, its layer range is contained in the candidate's merged range —
and no joint remaining in the map with the candidate's tag overlaps the
merged candidate's layer range. -/
theorem joint_disjointness_invariant :
    (∀ ops : List JOp, opsProper ops → sameTagDisjoint (runJ ops))
    ∧ (∀ (m : JointMap) (pos : V2) (aL : LRange) (net : Int),
        sameTagDisjoint m → properMap m →
        ((∀ e ∈ m, e.1 = (⟨pos, net⟩ : Tag) → overlapsR aL e.2.layers = true →
            (∀ x ∈ e.2.links, x ∈ (touchJointM pos aL net m).1.links)
            ∧ rsub e.2.layers (touchJointM pos aL net m).1.layers)
          ∧ ∀ e ∈ (touchJointM pos aL net m).2, e.1 = (⟨pos, net⟩ : Tag) →
              overlapsR (touchJointM pos aL net m).1.layers e.2.layers = false)) := by
  constructor
  · intro ops hops
    exact (jinv_runJ_from ops [] jinv_empty hops).1
  · intro m pos aL net hwf hpm
    constructor
    · intro e he htag hov
      refine touchLoopF_merged ⟨pos, net⟩ aL (m.length + 1)
        ⟨⟨pos, net⟩, aL, [], false⟩ m (Nat.lt_succ_self _) e he ?_
      simp only [touchPred, Bool.and_eq_true, beq_iff_eq]
      exact ⟨htag, hov⟩
    · exact touch_no_overlap pos aL net m hwf hpm

section C6Witness

def c6seg1 : Item := ⟨1, .seg, ⟨0, 0⟩, ⟨0, 0⟩, ⟨100, 0⟩, ⟨0, 0⟩, 1, none⟩

def c6via1 : Item := ⟨2, .via, ⟨0, 0⟩, ⟨0, 0⟩, ⟨0, 0⟩, ⟨0, 3⟩, 1, none⟩

def c6ops : List JOp :=
  [JOp.addSeg c6seg1, JOp.addVia c6via1, JOp.lock ⟨0, 0⟩ c6seg1 true, JOp.remVia c6via1]

end C6Witness

theorem joint_disjointness_invariant_witness :
    sameTagDisjoint (runJ c6ops)
    ∧ ((∀ e ∈ c5map, e.1 = (⟨⟨0, 0⟩, 1⟩ : Tag) →
          overlapsR ⟨0, 2⟩ e.2.layers = true →
          (∀ x ∈ e.2.links, x ∈ (touchJointM ⟨0, 0⟩ ⟨0, 2⟩ 1 c5map).1.links)
          ∧ rsub e.2.layers (touchJointM ⟨0, 0⟩ ⟨0, 2⟩ 1 c5map).1.layers)
        ∧ ∀ e ∈ (touchJointM ⟨0, 0⟩ ⟨0, 2⟩ 1 c5map).2, e.1 = (⟨⟨0, 0⟩, 1⟩ : Tag) →
            overlapsR (touchJointM ⟨0, 0⟩ ⟨0, 2⟩ 1 c5map).1.layers e.2.layers = false) :=
  ⟨joint_disjointness_invariant.1 c6ops (by decide),
   joint_disjointness_invariant.2 c5map ⟨0, 0⟩ ⟨0, 2⟩ 1 (by decide) (by decide)⟩

/-! ### Via removal splits merged joints (removeViaIndex) -/

theorem rsub_trans {a b c : LRange} (h1 : rsub a b) (h2 : rsub b c) : rsub a c :=
  ⟨le_trans h2.1 h1.1, le_trans h1.2 h2.2⟩

theorem filter_not_eraseP (p : α → Bool) :
    ∀ (m : List α), (m.eraseP p).filter (fun e => !p e) = m.filter (fun e => !p e) := by
  intro m
  induction m with
  | nil => rfl
  | cons x xs ih =>
    by_cases hx : p x
    · simp [List.eraseP_cons, List.filter_cons, hx]
    · simp only [List.eraseP_cons, hx, Bool.false_eq_true, if_false]
      simp [List.filter_cons, hx, ih]

theorem eraseViaLoopF_eq_filter (tag : Tag) (vL : LRange) :
    ∀ (fuel : Nat) (m : JointMap), m.length < fuel →
      eraseViaLoopF fuel tag vL m = m.filter (fun e => !(touchPred tag vL e)) := by
  intro fuel
  induction fuel with
  | zero => intro m hf; exact absurd hf (Nat.not_lt_zero _)
  | succ fuel ih =>
    intro m hf
    cases h : m.find? (touchPred tag vL) with
    | none =>
      simp only [eraseViaLoopF, h]
      refine (List.filter_eq_self.mpr ?_).symm
      intro e he
      simpa using List.find?_eq_none.mp h e he
    | some e =>
      simp only [eraseViaLoopF, h]
      rw [ih _ (by have := eraseP_length_lt h; omega)]
      exact filter_not_eraseP (touchPred tag vL) m

/-- An item is linked, under its own layer range, from some joint of the
map carrying the given tag. -/
def linkedUnder (tg : Tag) (x : Item) (m : JointMap) : Prop :=
  ∃ e ∈ m, e.1 = tg ∧ x ∈ e.2.links ∧ rsub x.layers e.2.layers

theorem linkJointM_self (pos : V2) (net : Int) (x : Item) (m : JointMap) :
    linkedUnder ⟨pos, net⟩ x (linkJointM pos x.layers net x m) := by
  unfold linkJointM linkedUnder
  refine ⟨(⟨pos, net⟩,
    { (touchJointM pos x.layers net m).1 with
        links := (touchJointM pos x.layers net m).1.links ++ [x] }), ?_, rfl, ?_, ?_⟩
  · exact (mem_insertAdj _ _ _ _).mpr (Or.inl rfl)
  · simp
  · have hmono := touchLoopF_mono ⟨pos, net⟩ x.layers (m.length + 1)
      ⟨⟨pos, net⟩, x.layers, [], false⟩ m
    exact ⟨hmono.1, hmono.2.1⟩

theorem linkJointM_preserves_linkedUnder (tg : Tag) (x : Item) (pos : V2)
    (aL : LRange) (net : Int) (y : Item) (m : JointMap)
    (h : linkedUnder tg x m) : linkedUnder tg x (linkJointM pos aL net y m) := by
  obtain ⟨e, he, htg, hx, hr⟩ := h
  by_cases hp : touchPred ⟨pos, net⟩ aL e = true
  · have hmrg := touchLoopF_merged ⟨pos, net⟩ aL (m.length + 1)
      ⟨⟨pos, net⟩, aL, [], false⟩ m (Nat.lt_succ_self _) e he hp
    have htag : e.1 = (⟨pos, net⟩ : Tag) := by
      have := hp
      simp only [touchPred, Bool.and_eq_true, beq_iff_eq] at this
      exact this.1
    unfold linkJointM linkedUnder
    refine ⟨(⟨pos, net⟩,
      { (touchJointM pos aL net m).1 with
          links := (touchJointM pos aL net m).1.links ++ [y] }), ?_, ?_, ?_, ?_⟩
    · exact (mem_insertAdj _ _ _ _).mpr (Or.inl rfl)
    · exact htag ▸ htg
    · exact List.mem_append.mpr (Or.inl (hmrg.1 x hx))
    · exact rsub_trans hr hmrg.2
  · have hsur : e ∈ (touchJointM pos aL net m).2 :=
      touchLoopF_survives ⟨pos, net⟩ aL (m.length + 1)
        ⟨⟨pos, net⟩, aL, [], false⟩ m e he (by
          cases hb : touchPred ⟨pos, net⟩ aL e
          · rfl
          · exact absurd hb hp)
    exact ⟨e, (mem_insertAdj _ _ _ _).mpr (Or.inr hsur), htg, hx, hr⟩

theorem relink_fold_linked (v : Item) :
    ∀ (links : List Item) (mm : JointMap) (x : Item),
      ((x ∈ links ∧ x.iid ≠ v.iid) ∨ linkedUnder ⟨v.pos, v.net⟩ x mm) →
      linkedUnder ⟨v.pos, v.net⟩ x (links.foldl
        (fun mm it => if it.iid = v.iid then mm else linkJointM v.pos it.layers v.net it mm) mm) := by
  intro links
  induction links with
  | nil =>
    intro mm x h
    rcases h with ⟨hx, _⟩ | h
    · exact absurd hx (List.not_mem_nil x)
    · exact h
  | cons y ys ih =>
    intro mm x h
    simp only [List.foldl_cons]
    rcases h with ⟨hx, hne⟩ | h
    · rcases List.mem_cons.mp hx with rfl | hx'
      · simp only [hne, if_false]
        exact ih _ x (Or.inr (linkJointM_self v.pos v.net x mm))
      · exact ih _ x (Or.inl ⟨hx', hne⟩)
    · by_cases hy : y.iid = v.iid
      · simp only [hy, if_true]
        exact ih _ x (Or.inr h)
      · simp only [hy, if_false]
        exact ih _ x (Or.inr (linkJointM_preserves_linkedUnder _ x v.pos y.layers v.net y mm h))

section C7Data

/-- Seed test data: a segment on layer 0 (F.Cu) touching (50,50). -/
def c7seg1 : Item := ⟨1, .seg, ⟨0, 0⟩, ⟨50, 50⟩, ⟨100, 50⟩, ⟨0, 0⟩, 1, none⟩

/-- Seed test data: a segment on layer 3 (B.Cu) touching (50,50). -/
def c7seg2 : Item := ⟨2, .seg, ⟨0, 0⟩, ⟨50, 50⟩, ⟨50, 100⟩, ⟨3, 3⟩, 1, none⟩

/-- Seed test data: a via at (50,50) spanning layers 0..3, net 1. -/
def c7via : Item := ⟨3, .via, ⟨50, 50⟩, ⟨0, 0⟩, ⟨0, 0⟩, ⟨0, 3⟩, 1, none⟩

/-- The joint map after adding both segments and the via. -/
def c7map : JointMap := runJ [.addSeg c7seg1, .addSeg c7seg2, .addVia c7via]

/-- The joint map after removing the via again. -/
def c7after : JointMap := stepJ c7map (.remVia c7via)

end C7Data

/-- C7: via removal splits merged joints.  (i) The removeViaIndex erase
loop, iterating until no overlap remains, erases exactly every joint with
the via's tag whose layer range overlaps the via's.  (ii) Every item of
the captured link list other than the via itself is re-linked under its
own layer range: afterwards it is linked from a joint at the via's
(position, net) whose layer range contains the item's.  (iii) The seed
scenario: after both segments and the spanning via are added at (50,50)
(where the two per-layer lookups hit one merged joint), removing the via
leaves FindJoint((50,50), layer 0, net 1) and FindJoint((50,50), layer 3,
net 1) returning two distinct joints, each linking exactly one segment. -/
theorem removeVia_splits_joints :
    (∀ (m : JointMap) (v : Item),
        eraseViaLoop ⟨v.pos, v.net⟩ v.layers m
          = m.filter (fun e => !(touchPred ⟨v.pos, v.net⟩ v.layers e)))
    ∧ (∀ (m : JointMap) (v x : Item),
        x ∈ viaLinks m v → x.iid ≠ v.iid →
        linkedUnder ⟨v.pos, v.net⟩ x (removeViaJoints m v))
    ∧ ((FindJointM c7map ⟨50, 50⟩ 0 1 = FindJointM c7map ⟨50, 50⟩ 3 1
          ∧ (FindJointM c7map ⟨50, 50⟩ 0 1).isSome = true)
        ∧ (FindJointM c7after ⟨50, 50⟩ 0 1).map Joint.links = some [c7seg1]
        ∧ (FindJointM c7after ⟨50, 50⟩ 3 1).map Joint.links = some [c7seg2]
        ∧ FindJointM c7after ⟨50, 50⟩ 0 1 ≠ FindJointM c7after ⟨50, 50⟩ 3 1) := by
  refine ⟨?_, ?_, ?_, ?_, ?_, ?_⟩
  · intro m v
    exact eraseViaLoopF_eq_filter ⟨v.pos, v.net⟩ v.layers (m.length + 1) m (Nat.lt_succ_self _)
  · intro m v x hx hne
    exact relink_fold_linked v (viaLinks m v) _ x (Or.inl ⟨hx, hne⟩)
  · exact ⟨by decide, by decide⟩
  · decide
  · decide
  · decide

theorem removeVia_splits_joints_witness :
    linkedUnder ⟨c7via.pos, c7via.net⟩ c7seg1 (removeViaJoints c7map c7via)
    ∧ linkedUnder ⟨c7via.pos, c7via.net⟩ c7seg2 (removeViaJoints c7map c7via) :=
  ⟨removeVia_splits_joints.2.1 c7map c7via c7seg1 (by decide) (by decide),
   removeVia_splits_joints.2.1 c7map c7via c7seg2 (by decide) (by decide)⟩

/-! ### The revision tree (`pns_revision.cpp`, corrected version) -/

/-- A REVISION node: parent back-link (null at root), owned branches,
owned added items, and removed-item references — all heap pointers
modelled as stable ids. -/
structure RevNode where
  parent : Option Nat
  branches : List Nat
  added : List Item
  removed : List Nat
deriving DecidableEq, Repr

/-- The set of live revision objects, keyed by id, in allocation order.
Pointer equality is key equality. -/
abbrev Arena := List (Nat × RevNode)

def lookupA (a : Arena) (k : Nat) : Option RevNode :=
  (a.find? (fun e => e.1 == k)).map (fun e => e.2)

def updateA (a : Arena) (k : Nat) (f : RevNode → RevNode) : Arena :=
  a.map (fun e => if e.1 = k then (e.1, f e.2) else e)

/-- REVISION::AddItem: `aItem->SetOwner(this)` then push_back into the
added-items list. -/
def addItemNode (rid : Nat) (n : RevNode) (it : Item) : RevNode :=
  { n with added := n.added ++ [{ it with owner := some rid }] }

/-- REVISION::RemoveItem: erase the item from the added list if this
revision added it (find_if by pointer), otherwise append the reference to
the removed list. -/
def removeItemNode (n : RevNode) (x : Nat) : RevNode :=
  if n.added.any (fun it => it.iid == x) then
    { n with added := n.added.eraseP (fun it => it.iid == x) }
  else
    { n with removed := n.removed ++ [x] }

/-- REVISION::Absorb: for each removal of the child call RemoveItem on
the parent, then for each added item of the child call AddItem on the
parent (which re-stamps the owner). -/
def absorbNode (pid : Nat) (p r : RevNode) : RevNode :=
  r.added.foldl (addItemNode pid) (r.removed.foldl removeItemNode p)

/-- Ids of the revisions in the subtrees rooted at `seeds` (the nodes a
`ClearBranches`/`RemoveBranch` destroys), collected by following branch
lists; `fuel` bounds the descent (the arena size suffices for any actual
tree). -/
def closureIds : Nat → Arena → List Nat → List Nat
  | 0, _, seeds => seeds
  | fuel + 1, a, seeds =>
    seeds ++ seeds.foldl (fun acc i =>
      acc ++ closureIds fuel a (((lookupA a i).map RevNode.branches).getD [])) []

/-- REVISION::Squash, translated step by step: assert the parent exists;
`parent->Absorb(this)`; `parent->ReleaseBranch(this)` (drop this id from
the parent's branch list); `parent->ClearBranches()` (destroy every
remaining — sibling — branch subtree); move this revision's branch ids
into the parent's branch list; finally this revision object is destroyed.
The grandchildren's parent back-links are NOT updated by the source.
Returns the new arena and the parent id (none when a precondition is
violated, where the C++ would assert or crash). -/
def squashA (a : Arena) (rid : Nat) : Arena × Option Nat :=
  match lookupA a rid with
  | none => (a, none)
  | some r =>
    match r.parent with
    | none => (a, none)
    | some pid =>
      match lookupA a pid with
      | none => (a, none)
      | some p =>
        let pAbs := absorbNode pid p r
        let kills := rid :: closureIds a.length a (pAbs.branches.erase rid)
        let a1 := updateA a pid (fun _ => { pAbs with branches := r.branches })
        (a1.filter (fun e => decide (e.1 ∉ kills)), some pid)

/-- REVISION::Revert: `m_parent->RemoveBranch(this)` — remove this id
from the parent's branch list and destroy the subtree; returns the new
arena and the parent id. -/
def revertA (a : Arena) (rid : Nat) : Arena × Option Nat :=
  match lookupA a rid with
  | none => (a, none)
  | some r =>
    match r.parent with
    | none => (a, none)
    | some pid =>
      let kills := closureIds a.length a [rid]
      let a1 := updateA a pid (fun pn => { pn with branches := pn.branches.erase rid })
      (a1.filter (fun e => decide (e.1 ∉ kills)), some pid)

/-! ### The node façade state (`pns_node.cpp`) -/

/-- NODE state: the revision arena, the checked-out (current) revision
id, a fresh-id counter for allocation, the spatial index contents and the
joint map. -/
structure NState where
  arena : Arena
  current : Nat
  fresh : Nat
  index : List Item
  joints : JointMap
deriving DecidableEq, Repr

/-- NODE::addSolidIndex: link the joint at the solid's position, add to
the spatial index. -/
def addSolidIndexS (s : NState) (it : Item) : NState :=
  { s with joints := linkJointM it.pos it.layers it.net it s.joints
         , index := s.index ++ [it] }

/-- NODE::addSegmentIndex: link the joints at both endpoints, add to the
spatial index. -/
def addSegIndexS (s : NState) (it : Item) : NState :=
  { s with joints := linkJointM it.b it.layers it.net it
             (linkJointM it.a it.layers it.net it s.joints)
         , index := s.index ++ [it] }

/-- NODE::addViaIndex: link the joint at the via's position, add to the
spatial index. -/
def addViaIndexS (s : NState) (it : Item) : NState :=
  { s with joints := linkJointM it.pos it.layers it.net it s.joints
         , index := s.index ++ [it] }

/-- NODE::addItemIndex: dispatch on the item kind. -/
def addItemIndexS (s : NState) (it : Item) : NState :=
  match it.kind with
  | .solid => addSolidIndexS s it
  | .seg => addSegIndexS s it
  | .via => addViaIndexS s it

/-- NODE::removeSolidIndex: unlink the joint, remove from the index
(identity-based removal). -/
def removeSolidIndexS (s : NState) (it : Item) : NState :=
  { s with joints := unlinkJointM it.pos it.layers it.net it s.joints
         , index := s.index.eraseP (fun x => x.iid == it.iid) }

/-- NODE::removeSegmentIndex: unlink both endpoint joints, remove from
the index. -/
def removeSegIndexS (s : NState) (it : Item) : NState :=
  { s with joints := unlinkJointM it.b it.layers it.net it
             (unlinkJointM it.a it.layers it.net it s.joints)
         , index := s.index.eraseP (fun x => x.iid == it.iid) }

/-- NODE::removeViaIndex: split the via joint (see `removeViaJoints`),
remove the via from the index. -/
def removeViaIndexS (s : NState) (it : Item) : NState :=
  { s with joints := removeViaJoints s.joints it
         , index := s.index.eraseP (fun x => x.iid == it.iid) }

/-- NODE::removeItemIndex: dispatch on the item kind. -/
def removeItemIndexS (s : NState) (it : Item) : NState :=
  match it.kind with
  | .solid => removeSolidIndexS s it
  | .seg => removeSegIndexS s it
  | .via => removeViaIndexS s it

/-- Resolve a removed-item reference to the item owned by some revision
of the arena (removed lists reference ancestor-owned items). -/
def findItemA (a : Arena) (iid : Nat) : Option Item :=
  (a.foldl (fun acc e => acc ++ e.2.added) []).find? (fun it => it.iid == iid)

/-- NODE::revertRevision: for each added item of the revision remove it
from index and joints, then for each removed item add it back. -/
def revertRevisionS (s : NState) (n : RevNode) : NState :=
  let s1 := n.added.foldl removeItemIndexS s
  n.removed.foldl (fun st iid =>
    match findItemA st.arena iid with
    | some it => addItemIndexS st it
    | none => st) s1

/-- NODE::BranchMove: allocate a child of the current revision (REVISION::
Branch appends a fresh node with parent = current) and check it out. -/
def nodeBranchMove (s : NState) : NState :=
  { s with
      arena := (s.fresh, ⟨some s.current, [], [], []⟩)
        :: updateA s.arena s.current (fun n => { n with branches := n.branches ++ [s.fresh] }),
      current := s.fresh,
      fresh := s.fresh + 1 }

/-- NODE::Revert: replay-undo the current revision's deltas against index
and joints, then `m_revision = m_revision->Revert()` (the parent removes
and destroys the branch).  Reverting the root is a precondition violation
(the C++ dereferences a null parent); modelled as a no-op. -/
def nodeRevert (s : NState) : NState :=
  match lookupA s.arena s.current with
  | none => s
  | some n =>
    match n.parent with
    | none => s
    | some pid =>
      let s1 := revertRevisionS s n
      { s1 with arena := (revertA s1.arena s.current).1, current := pid }

/-- NODE::Squash: `m_revision = m_revision->Squash()`. -/
def nodeSquash (s : NState) : NState :=
  match squashA s.arena s.current with
  | (a1, some pid) => { s with arena := a1, current := pid }
  | (_, none) => s

/-- NODE::Add(SOLID): update index and joints, then transfer ownership to
the current revision via AddItem. -/
def nodeAddSolid (s : NState) (it : Item) : NState :=
  let s1 := addSolidIndexS s it
  { s1 with arena := updateA s1.arena s1.current (fun n => addItemNode s1.current n it) }

/-- NODE::Add(VIA). -/
def nodeAddVia (s : NState) (it : Item) : NState :=
  let s1 := addViaIndexS s it
  { s1 with arena := updateA s1.arena s1.current (fun n => addItemNode s1.current n it) }

/-- NODE::findRedundantSegment(A, B, lr, net): look up the joint at A on
the range's start layer; scan its link list for a SEGMENT with the same
start layer and the same endpoints in either order. -/
def findRedundantSegmentM (m : JointMap) (pA pB : V2) (lr : LRange) (net : Int) :
    Option Item :=
  match FindJointM m pA lr.lo net with
  | none => none
  | some jt => jt.links.find? (fun x =>
      x.kind == ItemKind.seg && x.layers.lo == lr.lo
        && ((pA == x.a && pB == x.b) || (pA == x.b && pB == x.a)))

/-- NODE::Add(SEGMENT, allowRedundant): a segment with equal end
coordinates is logged and dropped; a redundant segment is dropped unless
`allowRedundant`; otherwise update index and joints and transfer
ownership to the current revision. -/
def nodeAddSeg (s : NState) (it : Item) (allowRedundant : Bool) : NState :=
  if it.a = it.b then s
  else if !allowRedundant
      && (findRedundantSegmentM s.joints it.a it.b it.layers it.net).isSome then s
  else
    let s1 := addSegIndexS s it
    { s1 with arena := updateA s1.arena s1.current (fun n => addItemNode s1.current n it) }

/-- NODE::Remove: removeItemIndex, then record the removal in the current
revision via REVISION::RemoveItem. -/
def nodeRemove (s : NState) (it : Item) : NState :=
  let s1 := removeItemIndexS s it
  { s1 with arena := updateA s1.arena s1.current (fun n => removeItemNode n it.iid) }

/-- Node-façade operations for invariant runs. -/
inductive NOp where
  | addSolid (it : Item)
  | addVia (it : Item)
  | addSeg (it : Item) (allowRedundant : Bool)
  | remove (it : Item)
  | branchMove
  | squash
  | revert
deriving DecidableEq, Repr

def stepN (s : NState) : NOp → NState
  | .addSolid it => nodeAddSolid s it
  | .addVia it => nodeAddVia s it
  | .addSeg it ar => nodeAddSeg s it ar
  | .remove it => nodeRemove s it
  | .branchMove => nodeBranchMove s
  | .squash => nodeSquash s
  | .revert => nodeRevert s

def runN (ops : List NOp) (s : NState) : NState :=
  ops.foldl stepN s

/-- The initial node state: a single empty root revision checked out,
empty index and joint map. -/
def initN : NState := ⟨[(0, ⟨none, [], [], []⟩)], 0, 1, [], []⟩

/-- C8: BranchMove followed by Revert is the identity on the spatial
index contents, the joint map and the current-revision pointer, for every
node state: the freshly created branch has empty added and removed lists,
so the replay-undo touches nothing, and Revert returns to the branch's
parent, which is the revision that was current before BranchMove. -/
theorem branchMove_revert_id (s : NState) :
    (nodeRevert (nodeBranchMove s)).index = s.index
    ∧ (nodeRevert (nodeBranchMove s)).joints = s.joints
    ∧ (nodeRevert (nodeBranchMove s)).current = s.current := by
  simp [nodeBranchMove, nodeRevert, lookupA, List.find?, revertRevisionS, revertA]

/-- C9: adding a degenerate segment (equal end coordinates) is a no-op on
the whole node state — the current revision's added and removed lists, the
spatial index and the joint map are all unchanged (the segment is logged
and dropped, not surfaced as an error). -/
theorem degenerate_segment_add_noop (s : NState) (it : Item) (ar : Bool)
    (h : it.a = it.b) : nodeAddSeg s it ar = s := by
  simp [nodeAddSeg, h]

theorem degenerate_segment_add_noop_witness :
    nodeAddSeg initN ⟨7, .seg, ⟨0, 0⟩, ⟨5, 5⟩, ⟨5, 5⟩, ⟨0, 0⟩, 1, none⟩ false = initN :=
  degenerate_segment_add_noop initN ⟨7, .seg, ⟨0, 0⟩, ⟨5, 5⟩, ⟨5, 5⟩, ⟨0, 0⟩, 1, none⟩ false rfl

section C2Data

/-- A tree: root 0 with branch 1; revision 1 has branch 2.  Squashing
revision 1 should transfer revision 2 to root 0 and keep 2's parent
back-link consistent. -/
def c2arena : Arena :=
  [(0, ⟨none, [1], [], []⟩), (1, ⟨some 0, [2], [], []⟩), (2, ⟨some 1, [], [], []⟩)]

end C2Data

/-- C2: the claim states that after R.Squash() every transferred child Ci
is a branch of R's former parent P and the parent back-link invariant
still holds (Ci.Parent() == P).  The code violates the back-link part:
Squash moves the child ids into the parent's branch list but never
reassigns their parent pointers, so after squashing revision 1 of
`c2arena`, revision 2 is a branch of revision 0 yet its parent pointer
still names the destroyed revision 1 — a dangling pointer, not P. -/
theorem squash_dangling_parent_bug :
    (lookupA (squashA c2arena 1).1 0).map RevNode.branches = some [2]
    ∧ (lookupA (squashA c2arena 1).1 2).map RevNode.parent = some (some 1)
    ∧ (lookupA (squashA c2arena 1).1 2).map RevNode.parent ≠ some (some 0)
    ∧ lookupA (squashA c2arena 1).1 1 = none := by
  refine ⟨by decide, by decide, by decide, by decide⟩

/-! ### Squash cancellation (C1) -/

/-- Stated from the claim: the cancellation-normalised concatenation of
the parent's old deltas and the child's deltas, on item ids.  Each item in
the child's removed list cancels a matching entry in the parent's added
list or is appended to the parent's removed list; the child's added items
are then appended to the parent's added list (the caller appends them
after this fold). -/
def specCancelNormalize (pA : List Nat) (pR : List Nat) (cR : List Nat) :
    List Nat × List Nat :=
  cR.foldl (fun acc x =>
    if x ∈ acc.1 then (acc.1.erase x, acc.2) else (acc.1, acc.2 ++ [x])) (pA, pR)

theorem map_iid_eraseP (l : List Item) (x : Nat) :
    (l.eraseP (fun it => it.iid == x)).map Item.iid = (l.map Item.iid).erase x := by
  induction l with
  | nil => rfl
  | cons y ys ih =>
    by_cases hy : y.iid = x
    · simp [List.eraseP_cons, List.erase_cons, hy]
    · simp [List.eraseP_cons, List.erase_cons, hy, ih]

theorem any_iid_iff (l : List Item) (x : Nat) :
    l.any (fun it => it.iid == x) = true ↔ x ∈ l.map Item.iid := by
  rw [List.any_eq_true]
  constructor
  · rintro ⟨it, hit, hx⟩
    exact List.mem_map.mpr ⟨it, hit, by simpa using hx⟩
  · intro h
    rcases List.mem_map.mp h with ⟨it, hit, hx⟩
    exact ⟨it, hit, by simpa using hx⟩

theorem removeItemNode_proj (n : RevNode) (x : Nat) :
    (removeItemNode n x).added.map Item.iid
      = (if x ∈ n.added.map Item.iid then (n.added.map Item.iid).erase x
         else n.added.map Item.iid)
    ∧ (removeItemNode n x).removed
      = (if x ∈ n.added.map Item.iid then n.removed else n.removed ++ [x]) := by
  by_cases h : x ∈ n.added.map Item.iid
  · have ha : n.added.any (fun it => it.iid == x) = true := (any_iid_iff n.added x).mpr h
    simp [removeItemNode, ha, h, map_iid_eraseP]
  · have ha : n.added.any (fun it => it.iid == x) = false := by
      cases hb : n.added.any (fun it => it.iid == x)
      · rfl
      · exact absurd ((any_iid_iff n.added x).mp hb) h
    simp [removeItemNode, ha, h]

theorem removeFold_proj : ∀ (xs : List Nat) (n : RevNode),
    (((xs.foldl removeItemNode n).added.map Item.iid,
      (xs.foldl removeItemNode n).removed) : List Nat × List Nat)
      = specCancelNormalize (n.added.map Item.iid) n.removed xs := by
  intro xs
  induction xs with
  | nil => intro n; rfl
  | cons x rest ih =>
    intro n
    have hstep := removeItemNode_proj n x
    simp only [List.foldl_cons, specCancelNormalize, ih (removeItemNode n x)]
    by_cases h : x ∈ n.added.map Item.iid
    · simp only [specCancelNormalize, hstep.1, hstep.2, h, if_true]
    · simp only [specCancelNormalize, hstep.1, hstep.2, h, if_false]

theorem removeFold_branches : ∀ (xs : List Nat) (n : RevNode),
    (xs.foldl removeItemNode n).branches = n.branches := by
  intro xs
  induction xs with
  | nil => intro n; rfl
  | cons x rest ih =>
    intro n
    rw [List.foldl_cons, ih]
    by_cases h : n.added.any (fun it => it.iid == x) <;> simp [removeItemNode, h]

theorem addFold_proj (pid : Nat) : ∀ (xs : List Item) (n : RevNode),
    (xs.foldl (addItemNode pid) n).added
      = n.added ++ xs.map (fun it => { it with owner := some pid })
    ∧ (xs.foldl (addItemNode pid) n).removed = n.removed
    ∧ (xs.foldl (addItemNode pid) n).branches = n.branches := by
  intro xs
  induction xs with
  | nil => intro n; simp
  | cons x rest ih =>
    intro n
    have h := ih (addItemNode pid n x)
    refine ⟨?_, ?_, ?_⟩
    · rw [List.foldl_cons, h.1]
      simp [addItemNode, List.map_cons, List.append_assoc]
    · rw [List.foldl_cons, h.2.1]
      rfl
    · rw [List.foldl_cons, h.2.2]
      rfl

theorem absorbNode_proj (pid : Nat) (p r : RevNode) :
    (absorbNode pid p r).added.map Item.iid
      = (specCancelNormalize (p.added.map Item.iid) p.removed r.removed).1
        ++ r.added.map Item.iid
    ∧ (absorbNode pid p r).removed
      = (specCancelNormalize (p.added.map Item.iid) p.removed r.removed).2
    ∧ (absorbNode pid p r).branches = p.branches := by
  unfold absorbNode
  have hrem := removeFold_proj r.removed p
  have hadd := addFold_proj pid r.added (r.removed.foldl removeItemNode p)
  refine ⟨?_, ?_, ?_⟩
  · rw [hadd.1, List.map_append, List.map_map]
    have h1 : (r.removed.foldl removeItemNode p).added.map Item.iid
        = (specCancelNormalize (p.added.map Item.iid) p.removed r.removed).1 :=
      congrArg Prod.fst hrem
    rw [h1]
    congr 1
  · rw [hadd.2.1]
    exact congrArg Prod.snd hrem
  · rw [hadd.2.2]
    exact removeFold_branches r.removed p

theorem lookupA_mem {a : Arena} {k : Nat} {v : RevNode}
    (h : lookupA a k = some v) : (k, v) ∈ a := by
  unfold lookupA at h
  cases hf : a.find? (fun e => e.1 == k) with
  | none => rw [hf] at h; cases h
  | some e =>
    rw [hf] at h
    have h1 : e.1 = k := by simpa using List.find?_some hf
    have h2 : e.2 = v := Option.some.inj h
    have : e = (k, v) := by
      cases e; simp_all
    exact this ▸ List.mem_of_find?_eq_some hf

theorem lookupA_updateA_self {a : Arena} {k : Nat} {v : RevNode}
    (f : RevNode → RevNode) (h : lookupA a k = some v) :
    lookupA (updateA a k f) k = some (f v) := by
  induction a with
  | nil => simp [lookupA] at h
  | cons e rest ih =>
    by_cases he : e.1 = k
    · unfold lookupA at h
      rw [List.find?_cons_of_pos _ (by simpa using he)] at h
      have h2 : e.2 = v := Option.some.inj h
      simp [lookupA, updateA, List.find?_cons_of_pos, he, h2]
    · unfold lookupA at h
      rw [List.find?_cons_of_neg _ (by simpa using he)] at h
      have := ih h
      simpa [lookupA, updateA, List.find?_cons_of_neg, he] using this

theorem lookupA_filter_key {a : Arena} {k : Nat} (q : Nat → Bool) (hq : q k = true) :
    lookupA (a.filter (fun e => q e.1)) k = lookupA a k := by
  induction a with
  | nil => rfl
  | cons e rest ih =>
    by_cases he : e.1 = k
    · have hqe : q e.1 = true := he ▸ hq
      rw [List.filter_cons_of_pos (by simpa using hqe)]
      unfold lookupA
      rw [List.find?_cons_of_pos _ (by simpa using he),
        List.find?_cons_of_pos _ (by simpa using he)]
    · by_cases hqe : q e.1 = true
      · rw [List.filter_cons_of_pos (by simpa using hqe)]
        unfold lookupA at ih ⊢
        rw [List.find?_cons_of_neg _ (by simpa using he),
          List.find?_cons_of_neg _ (by simpa using he)]
        exact ih
      · rw [List.filter_cons_of_neg (by simpa using hqe)]
        unfold lookupA at ih ⊢
        rw [List.find?_cons_of_neg _ (by simpa using he)]
        exact ih

/-- C1: squash cancellation.  For a leaf revision `rid` with parent `pid`
(the parent not lying inside a sibling subtree that the squash destroys),
after `Squash()` the parent's added list (as item ids) and removed list
are exactly the cancellation-normalised concatenation of the parent's old
deltas and the child's deltas: each child removal cancels a matching
parent added entry or is appended to the parent's removed list, then the
child's added items are appended to the parent's added list. -/
theorem squash_cancellation (a : Arena) (rid pid : Nat) (r p : RevNode)
    (h1 : lookupA a rid = some r) (h2 : r.parent = some pid)
    (h3 : pid ≠ rid) (h4 : lookupA a pid = some p)
    (h5 : r.branches = [])
    (h6 : pid ∉ closureIds a.length a (p.branches.erase rid)) :
    ∃ p', lookupA (squashA a rid).1 pid = some p'
      ∧ p'.added.map Item.iid
          = (specCancelNormalize (p.added.map Item.iid) p.removed r.removed).1
            ++ r.added.map Item.iid
      ∧ p'.removed = (specCancelNormalize (p.added.map Item.iid) p.removed r.removed).2 := by
  refine ⟨{ absorbNode pid p r with branches := r.branches }, ?_,
    (absorbNode_proj pid p r).1, (absorbNode_proj pid p r).2.1⟩
  unfold squashA
  simp only [h1, h2, h4]
  rw [lookupA_filter_key
    (fun n => decide (n ∉ rid :: closureIds a.length a ((absorbNode pid p r).branches.erase rid)))
    (by
      rw [(absorbNode_proj pid p r).2.2]
      simp only [decide_eq_true_eq, List.mem_cons, not_or]
      exact ⟨h3, h6⟩)]
  exact lookupA_updateA_self _ h4

section C1Data

def c1itemA : Item := ⟨10, .solid, ⟨0, 0⟩, ⟨0, 0⟩, ⟨0, 0⟩, ⟨0, 0⟩, 1, some 0⟩

def c1itemB : Item := ⟨11, .solid, ⟨1, 1⟩, ⟨0, 0⟩, ⟨0, 0⟩, ⟨0, 0⟩, 1, some 0⟩

def c1itemC : Item := ⟨12, .solid, ⟨2, 2⟩, ⟨0, 0⟩, ⟨0, 0⟩, ⟨0, 0⟩, 1, some 1⟩

/-- Parent revision: owns items 10 and 11. -/
def c1p : RevNode := ⟨none, [1], [c1itemA, c1itemB], []⟩

/-- Leaf child: owns item 12, removed item 10 (cancels against the
parent) and item 99 (a deeper ancestor's item, appended). -/
def c1r : RevNode := ⟨some 0, [], [c1itemC], [10, 99]⟩

def c1arena : Arena := [(0, c1p), (1, c1r)]

end C1Data

theorem squash_cancellation_witness :
    ∃ p', lookupA (squashA c1arena 1).1 0 = some p'
      ∧ p'.added.map Item.iid
          = (specCancelNormalize (c1p.added.map Item.iid) c1p.removed c1r.removed).1
            ++ c1r.added.map Item.iid
      ∧ p'.removed
          = (specCancelNormalize (c1p.added.map Item.iid) c1p.removed c1r.removed).2 :=
  squash_cancellation c1arena 1 0 c1r c1p (by decide) (by decide) (by decide)
    (by decide) (by decide) (by decide)

/-! ### Owner stamping (C10) -/

/-- I5-style owner consistency: every item held in some revision's
added-items list carries that revision's id as its owner pointer. -/
def ownerInv (a : Arena) : Prop :=
  ∀ e ∈ a, ∀ it ∈ e.2.added, it.owner = some e.1

theorem ownerInv_updateA {a : Arena} {k : Nat} (f : RevNode → RevNode)
    (h : ownerInv a)
    (hf : ∀ v, (∀ it ∈ v.added, it.owner = some k) →
      ∀ it ∈ (f v).added, it.owner = some k) :
    ownerInv (updateA a k f) := by
  intro e he it hit
  rcases List.mem_map.mp he with ⟨e0, he0, hmap⟩
  by_cases hk : e0.1 = k
  · rw [if_pos hk] at hmap
    subst hmap
    simp only at hit ⊢
    rw [hk]
    exact hf e0.2 (fun x hx => hk ▸ h e0 he0 x hx) it hit
  · rw [if_neg hk] at hmap
    subst hmap
    exact h e0 he0 it hit

theorem ownerInv_filter {a : Arena} (q : Nat × RevNode → Bool)
    (h : ownerInv a) : ownerInv (a.filter q) :=
  fun e he it hit => h e ((List.filter_sublist a).subset he) it hit

theorem removeFold_added_subset : ∀ (xs : List Nat) (n : RevNode),
    ∀ it ∈ (xs.foldl removeItemNode n).added, it ∈ n.added := by
  intro xs
  induction xs with
  | nil => intro n it hit; exact hit
  | cons x rest ih =>
    intro n it hit
    have h1 := ih (removeItemNode n x) it hit
    by_cases h : n.added.any (fun i => i.iid == x)
    · simp only [removeItemNode, h, if_true] at h1
      exact (List.eraseP_sublist _).subset h1
    · simpa only [removeItemNode, h, if_false] using h1

theorem absorbNode_owners (pid : Nat) (p r : RevNode)
    (hp : ∀ it ∈ p.added, it.owner = some pid) :
    ∀ it ∈ (absorbNode pid p r).added, it.owner = some pid := by
  intro it hit
  unfold absorbNode at hit
  rw [(addFold_proj pid r.added (r.removed.foldl removeItemNode p)).1] at hit
  rcases List.mem_append.mp hit with h1 | h2
  · exact hp it (removeFold_added_subset r.removed p it h1)
  · rcases List.mem_map.mp h2 with ⟨x, _, hx⟩
    rw [← hx]

theorem ownerInv_squashA {a : Arena} (rid : Nat) (h : ownerInv a) :
    ownerInv (squashA a rid).1 := by
  cases h1 : lookupA a rid with
  | none => simpa only [squashA, h1] using h
  | some r =>
    cases h2 : r.parent with
    | none => simpa only [squashA, h1, h2] using h
    | some pid =>
      cases h4 : lookupA a pid with
      | none => simpa only [squashA, h1, h2, h4] using h
      | some p =>
        simp only [squashA, h1, h2, h4]
        refine ownerInv_filter _ (ownerInv_updateA _ h ?_)
        intro v _ it hit
        exact absorbNode_owners pid p r
          (fun x hx => h (pid, p) (lookupA_mem h4) x hx) it hit

theorem ownerInv_revertA {a : Arena} (rid : Nat) (h : ownerInv a) :
    ownerInv (revertA a rid).1 := by
  cases h1 : lookupA a rid with
  | none => simpa only [revertA, h1] using h
  | some r =>
    cases h2 : r.parent with
    | none => simpa only [revertA, h1, h2] using h
    | some pid =>
      simp only [revertA, h1, h2]
      refine ownerInv_filter _ (ownerInv_updateA _ h ?_)
      intro v hv it hit
      exact hv it hit

theorem ownerInv_addItem {a : Arena} (k : Nat) (it0 : Item) (h : ownerInv a) :
    ownerInv (updateA a k (fun n => addItemNode k n it0)) := by
  refine ownerInv_updateA _ h ?_
  intro v hv it hit
  rcases List.mem_append.mp hit with h1 | h2
  · exact hv it h1
  · rcases List.mem_singleton.mp h2 with rfl
    rfl

theorem ownerInv_removeItem {a : Arena} (k : Nat) (x : Nat) (h : ownerInv a) :
    ownerInv (updateA a k (fun n => removeItemNode n x)) := by
  refine ownerInv_updateA _ h ?_
  intro v hv it hit
  by_cases hany : v.added.any (fun i => i.iid == x)
  · simp only [removeItemNode, hany, if_true] at hit
    exact hv it ((List.eraseP_sublist _).subset hit)
  · simp only [removeItemNode, hany, if_false] at hit
    exact hv it hit

theorem ownerInv_stepN (s : NState) (op : NOp) (h : ownerInv s.arena) :
    ownerInv (stepN s op).arena := by
  cases op with
  | addSolid it => exact ownerInv_addItem _ it h
  | addVia it => exact ownerInv_addItem _ it h
  | addSeg it ar =>
    unfold stepN nodeAddSeg
    by_cases h1 : it.a = it.b
    · simpa [h1] using h
    · by_cases h2 : (!ar
          && (findRedundantSegmentM s.joints it.a it.b it.layers it.net).isSome) = true
      · simpa [h1, h2] using h
      · simpa [h1, h2] using ownerInv_addItem s.current it h
  | remove it =>
    have harena : (removeItemIndexS s it).arena = s.arena := by
      cases hk : it.kind <;> simp [removeItemIndexS, hk,
        removeSolidIndexS, removeSegIndexS, removeViaIndexS]
    show ownerInv (updateA (removeItemIndexS s it).arena (removeItemIndexS s it).current
      (fun n => removeItemNode n it.iid))
    rw [harena]
    exact ownerInv_removeItem _ it.iid h
  | branchMove =>
    intro e he it hit
    rcases List.mem_cons.mp he with rfl | he'
    · cases hit
    · exact ownerInv_updateA
        (fun n => { n with branches := n.branches ++ [s.fresh] }) h
        (fun v hv => hv) e he' it hit
  | squash =>
    cases hs : squashA s.arena s.current with
    | mk a1 c =>
      cases c with
      | none => simpa only [stepN, nodeSquash, hs] using h
      | some pid =>
        have hinv := ownerInv_squashA (a := s.arena) s.current h
        rw [hs] at hinv
        simpa only [stepN, nodeSquash, hs] using hinv
  | revert =>
    cases h1 : lookupA s.arena s.current with
    | none => simpa only [stepN, nodeRevert, h1] using h
    | some n =>
      cases h2 : n.parent with
      | none => simpa only [stepN, nodeRevert, h1, h2] using h
      | some pid =>
        have harena : (revertRevisionS s n).arena = s.arena := by
          unfold revertRevisionS
          have h1' : ∀ (xs : List Item) (st : NState),
              (xs.foldl removeItemIndexS st).arena = st.arena := by
            intro xs
            induction xs with
            | nil => intro st; rfl
            | cons x rest ih =>
              intro st
              rw [List.foldl_cons, ih]
              cases hx : x.kind <;> simp [removeItemIndexS, hx,
                removeSolidIndexS, removeSegIndexS, removeViaIndexS]
          have h2' : ∀ (xs : List Nat) (st : NState),
              (xs.foldl (fun st iid =>
                match findItemA st.arena iid with
                | some it => addItemIndexS st it
                | none => st) st).arena = st.arena := by
            intro xs
            induction xs with
            | nil => intro st; rfl
            | cons x rest ih =>
              intro st
              rw [List.foldl_cons, ih]
              cases hfi : findItemA st.arena x with
              | none => rfl
              | some it =>
                cases hk : it.kind <;> simp [hfi, addItemIndexS, hk,
                  addSolidIndexS, addSegIndexS, addViaIndexS]
          rw [h2', h1']
        have hfin := ownerInv_revertA (a := (revertRevisionS s n).arena) s.current
          (by rw [harena]; exact h)
        simpa only [stepN, nodeRevert, h1, h2] using hfin

/-- C10: owner stamping.  Running any sequence of node operations from
the initial state keeps the owner-pointer invariant: every item held in
some revision's added-items list has its owner pointer equal to that
revision — NODE::Add stamps through REVISION::AddItem, and Squash's
Absorb re-stamps each absorbed item with the parent before appending it
to the parent's added list. -/
theorem owner_stamping_invariant (ops : List NOp) :
    ownerInv (runN ops initN).arena := by
  have hrun : ∀ (l : List NOp) (s : NState), ownerInv s.arena →
      ownerInv (runN l s).arena := by
    intro l
    induction l with
    | nil => intro s h; exact h
    | cons op rest ih =>
      intro s h
      exact ih (stepN s op) (ownerInv_stepN s op h)
  refine hrun ops initN ?_
  intro e he it hit
  rcases List.mem_cons.mp he with rfl | he'
  · cases hit
  · cases he'

/-! ### The free-standing Path function (C3)

A revision handle is modelled by its ancestor chain: the list of node ids
from the revision up to the root, self first.  `Parent()` is the tail, the
null pointer is the empty chain, pointer equality is chain equality (in a
tree every node is determined by its ancestor chain), and `Depth()` — the
number of Parent() steps to the root — is the chain length minus one. -/

abbrev RevC := List Nat

/-- REVISION::Depth. -/
def depthC (c : RevC) : Nat := c.length - 1

/-- Free-standing Path(aFrom, aTo) from `pns_revision.cpp`: the first two
loops equalize the depths by walking the deeper side upward, collecting
into its list; the third loop walks both sides upward in lockstep while
they are non-null and distinct, collecting into both lists.  Result =
(from-list, to-list) = (revert list, apply list). -/
def pathFT (f t : RevC) : List RevC × List RevC :=
  if depthC f > depthC t then
    let p := pathFT f.tail t
    (f :: p.1, p.2)
  else if depthC t > depthC f then
    let p := pathFT f t.tail
    (p.1, t :: p.2)
  else if f ≠ [] ∧ t ≠ [] ∧ f ≠ t then
    let p := pathFT f.tail t.tail
    (f :: p.1, t :: p.2)
  else ([], [])
termination_by f.length + t.length
decreasing_by
  · simp only [depthC] at *
    have : f.tail.length = f.length - 1 := List.length_tail f
    omega
  · simp only [depthC] at *
    have : t.tail.length = t.length - 1 := List.length_tail t
    omega
  · rename_i h3
    have h1 : 0 < f.length := List.length_pos.mpr h3.1
    have h2 : 0 < t.length := List.length_pos.mpr h3.2.1
    have : f.tail.length = f.length - 1 := List.length_tail f
    have : t.tail.length = t.length - 1 := List.length_tail t
    omega

/-- REVISION::Path-style walk stated from the spec: the revisions from
`f` up to (excluding) the ancestor `anc`, in child-to-parent order. -/
def chainUpTo : RevC → RevC → List RevC
  | [], _ => []
  | x :: rest, anc =>
    if x :: rest = anc then [] else (x :: rest) :: chainUpTo rest anc

/-- Longest common starting run of two lists. -/
def commonStart : List Nat → List Nat → List Nat
  | x :: xs, y :: ys => if x = y then x :: commonStart xs ys else []
  | _, _ => []

/-- The lowest common ancestor of two revisions in chain representation:
the longest common suffix of their ancestor chains. -/
def lcaC (f t : RevC) : RevC := (commonStart f.reverse t.reverse).reverse

theorem commonStart_length : ∀ (a b : List Nat),
    (commonStart a b).length ≤ a.length ∧ (commonStart a b).length ≤ b.length := by
  intro a
  induction a with
  | nil => intro b; cases b <;> simp [commonStart]
  | cons x xs ih =>
    intro b
    cases b with
    | nil => simp [commonStart]
    | cons y ys =>
      by_cases hxy : x = y
      · have := ih ys
        simp only [commonStart, hxy, if_true, List.length_cons]
        omega
      · simp [commonStart, hxy]

theorem commonStart_self : ∀ (a : List Nat), commonStart a a = a := by
  intro a
  induction a with
  | nil => rfl
  | cons x xs ih => simp [commonStart, ih]

theorem commonStart_nil_right : ∀ (a : List Nat), commonStart a [] = [] := by
  intro a
  cases a <;> rfl

theorem commonStart_cons_eq (x : Nat) (a b : List Nat) :
    commonStart (x :: a) (x :: b) = x :: commonStart a b := by
  simp [commonStart]

theorem commonStart_dropLast_left : ∀ (a b : List Nat), b.length < a.length →
    commonStart a b = commonStart a.dropLast b := by
  intro a
  induction a with
  | nil => intro b h; simp at h
  | cons x xs ih =>
    intro b h
    cases b with
    | nil => rw [commonStart_nil_right, commonStart_nil_right]
    | cons y ys =>
      cases xs with
      | nil => simp at h
      | cons x2 xs2 =>
        have hlen : ys.length < (x2 :: xs2).length := by
          simp at h ⊢
          omega
        by_cases hxy : x = y
        · subst hxy
          rw [commonStart_cons_eq, ih ys hlen, List.dropLast_cons₂, commonStart_cons_eq]
        · simp [commonStart, hxy, List.dropLast_cons₂]

theorem commonStart_dropLast_both : ∀ (a b : List Nat),
    a.length = b.length → a ≠ b →
    commonStart a b = commonStart a.dropLast b.dropLast := by
  intro a
  induction a with
  | nil =>
    intro b h hne
    cases b with
    | nil => exact absurd rfl hne
    | cons y ys => simp at h
  | cons x xs ih =>
    intro b h hne
    cases b with
    | nil => simp at h
    | cons y ys =>
      by_cases hxy : x = y
      · subst hxy
        have hlen : xs.length = ys.length := by simpa using h
        have hne2 : xs ≠ ys := fun hc => hne (by rw [hc])
        cases xs with
        | nil =>
          cases ys with
          | nil => exact absurd rfl hne2
          | cons y2 ys2 => simp at hlen
        | cons x2 xs2 =>
          cases ys with
          | nil => simp at hlen
          | cons y2 ys2 =>
            rw [commonStart_cons_eq, ih (y2 :: ys2) hlen hne2,
              List.dropLast_cons₂, List.dropLast_cons₂, commonStart_cons_eq]
      · cases xs with
        | nil =>
          cases ys with
          | nil => simp [commonStart, hxy, List.dropLast]
          | cons y2 ys2 => simp at h
        | cons x2 xs2 =>
          cases ys with
          | nil => simp at h
          | cons y2 ys2 => simp [commonStart, hxy, List.dropLast_cons₂]

theorem tail_reverse (l : List Nat) : l.tail.reverse = l.reverse.dropLast := by
  cases l with
  | nil => rfl
  | cons x xs => simp [List.reverse_cons, List.dropLast_concat]

theorem lcaC_length (f t : RevC) :
    (lcaC f t).length ≤ f.length ∧ (lcaC f t).length ≤ t.length := by
  have h := commonStart_length f.reverse t.reverse
  simpa [lcaC] using h

theorem lcaC_self (f : RevC) : lcaC f f = f := by
  simp [lcaC, commonStart_self]

theorem lcaC_tail_left {f t : RevC} (h : t.length < f.length) :
    lcaC f t = lcaC f.tail t := by
  unfold lcaC
  rw [tail_reverse, ← commonStart_dropLast_left f.reverse t.reverse (by simpa using h)]

theorem lcaC_tail_both {f t : RevC} (hlen : f.length = t.length) (hne : f ≠ t) :
    lcaC f t = lcaC f.tail t.tail := by
  unfold lcaC
  rw [tail_reverse, tail_reverse,
    ← commonStart_dropLast_both f.reverse t.reverse (by simpa using hlen)
      (fun hc => hne (List.reverse_injective hc))]

theorem lcaC_ne_nil {f t : RevC} (hf : f ≠ []) (hroot : f.getLast? = t.getLast?) :
    lcaC f t ≠ [] := by
  cases hfr : f.reverse with
  | nil => exact absurd (by simpa using congrArg List.reverse hfr) hf
  | cons r rs =>
    have hfl : f.getLast? = some r := by
      have : f = rs.reverse ++ [r] := by
        have := congrArg List.reverse hfr
        simpa [List.reverse_cons] using this
      rw [this, List.getLast?_concat]
    cases htr : t.reverse with
    | nil =>
      have : t = [] := by simpa using congrArg List.reverse htr
      rw [this] at hroot
      simp [hfl] at hroot
    | cons r' rs' =>
      have htl : t.getLast? = some r' := by
        have : t = rs'.reverse ++ [r'] := by
          have := congrArg List.reverse htr
          simpa [List.reverse_cons] using this
        rw [this, List.getLast?_concat]
      have hrr : r = r' := by
        rw [hfl, htl] at hroot
        exact Option.some.inj hroot
      subst hrr
      simp only [lcaC, hfr, htr, commonStart, if_pos rfl]
      simp

theorem getLast?_tail {l : RevC} (h : 2 ≤ l.length) :
    l.tail.getLast? = l.getLast? := by
  match l, h with
  | x :: y :: rest, _ => simp [List.getLast?_cons_cons]

theorem chainUpTo_self {f : RevC} (hf : f ≠ []) : chainUpTo f f = [] := by
  cases f with
  | nil => exact absurd rfl hf
  | cons x rest => simp [chainUpTo]

theorem chainUpTo_cons {f anc : RevC} (hf : f ≠ []) (hne : f ≠ anc) :
    chainUpTo f anc = f :: chainUpTo f.tail anc := by
  cases f with
  | nil => exact absurd rfl hf
  | cons x rest => simp [chainUpTo, hne]

theorem commonStart_comm : ∀ (a b : List Nat), commonStart a b = commonStart b a := by
  intro a
  induction a with
  | nil => intro b; cases b <;> rfl
  | cons x xs ih =>
    intro b
    cases b with
    | nil => rfl
    | cons y ys =>
      by_cases hxy : x = y
      · subst hxy
        simp [commonStart, ih ys]
      · simp [commonStart, hxy, Ne.symm hxy]

theorem lcaC_tail_right {f t : RevC} (h : f.length < t.length) :
    lcaC f t = lcaC f t.tail := by
  unfold lcaC
  rw [tail_reverse, commonStart_comm f.reverse t.reverse,
    commonStart_dropLast_left t.reverse f.reverse (by simpa using h),
    commonStart_comm]

theorem path_lca_spec : ∀ (f t : RevC), f ≠ [] → t ≠ [] →
    f.getLast? = t.getLast? →
    pathFT f t = (chainUpTo f (lcaC f t), chainUpTo t (lcaC f t)) := by
  intro f t
  induction f, t using pathFT.induct with
  | case1 f t h ih =>
    intro hf ht hroot
    have hlen : t.length < f.length := by
      have h1 : 0 < t.length := List.length_pos.mpr ht
      simp only [depthC] at h
      omega
    have hf2 : 2 ≤ f.length := by
      have h1 : 0 < t.length := List.length_pos.mpr ht
      omega
    have hftail : f.tail ≠ [] := by
      have hlt : f.tail.length = f.length - 1 := List.length_tail f
      intro hc
      rw [hc] at hlt
      simp at hlt
      omega
    have hlast : f.tail.getLast? = t.getLast? := by
      rw [getLast?_tail hf2, hroot]
    have hL : lcaC f t = lcaC f.tail t := lcaC_tail_left hlen
    have hih := ih hftail ht hlast
    have hneq : f ≠ lcaC f.tail t := by
      intro hc
      have hle := (lcaC_length f t).2
      rw [hL] at hle
      have := congrArg List.length hc
      omega
    rw [pathFT, if_pos h]
    simp only [hih, hL]
    rw [chainUpTo_cons hf hneq]
  | case2 f t h1 h ih =>
    intro hf ht hroot
    have hlen : f.length < t.length := by
      have hfl : 0 < f.length := List.length_pos.mpr hf
      simp only [depthC] at h
      omega
    have ht2 : 2 ≤ t.length := by
      have hp : 0 < f.length := List.length_pos.mpr hf
      omega
    have httail : t.tail ≠ [] := by
      have hlt : t.tail.length = t.length - 1 := List.length_tail t
      intro hc
      rw [hc] at hlt
      simp at hlt
      omega
    have hlast : f.getLast? = t.tail.getLast? := by
      rw [getLast?_tail ht2]
      exact hroot
    have hL : lcaC f t = lcaC f t.tail := lcaC_tail_right hlen
    have hih := ih hf httail hlast
    have hneq : t ≠ lcaC f t.tail := by
      intro hc
      have hle := (lcaC_length f t).1
      rw [hL] at hle
      have := congrArg List.length hc
      omega
    rw [pathFT, if_neg h1, if_pos h]
    simp only [hih, hL]
    rw [chainUpTo_cons ht hneq]
  | case3 f t h1 h2 h ih =>
    intro hf ht hroot
    obtain ⟨hf', ht', hne⟩ := h
    have hfl : 0 < f.length := List.length_pos.mpr hf
    have htl : 0 < t.length := List.length_pos.mpr ht
    have hlen : f.length = t.length := by
      simp only [depthC] at h1 h2
      omega
    have hge2 : 2 ≤ f.length := by
      by_contra hc
      have hf1 : f.length = 1 := by omega
      have ht1 : t.length = 1 := by omega
      obtain ⟨x, hx⟩ := List.length_eq_one.mp hf1
      obtain ⟨y, hy⟩ := List.length_eq_one.mp ht1
      subst hx hy
      simp only [List.getLast?_singleton, Option.some.injEq] at hroot
      exact hne (by rw [hroot])
    have hftail : f.tail ≠ [] := by
      have hlt : f.tail.length = f.length - 1 := List.length_tail f
      intro hc
      rw [hc] at hlt
      simp at hlt
      omega
    have httail : t.tail ≠ [] := by
      have hlt : t.tail.length = t.length - 1 := List.length_tail t
      intro hc
      rw [hc] at hlt
      simp at hlt
      omega
    have hlast : f.tail.getLast? = t.tail.getLast? := by
      rw [getLast?_tail hge2, getLast?_tail (by omega : 2 ≤ t.length)]
      exact hroot
    have hL : lcaC f t = lcaC f.tail t.tail := lcaC_tail_both hlen hne
    have hih := ih hftail httail hlast
    have hneqf : f ≠ lcaC f.tail t.tail := by
      intro hc
      have hle := (lcaC_length f.tail t.tail).1
      have hlt : f.tail.length = f.length - 1 := List.length_tail f
      have := congrArg List.length hc
      omega
    have hneqt : t ≠ lcaC f.tail t.tail := by
      intro hc
      have hle := (lcaC_length f.tail t.tail).2
      have hlt : t.tail.length = t.length - 1 := List.length_tail t
      have := congrArg List.length hc
      omega
    rw [pathFT, if_neg h1, if_neg h2, if_pos ⟨hf', ht', hne⟩]
    simp only [hih, hL]
    rw [chainUpTo_cons hf hneqf, chainUpTo_cons ht hneqt]
  | case4 f t h1 h2 h3 =>
    intro hf ht _
    have heq : f = t := by
      by_contra hc
      exact h3 ⟨hf, ht, hc⟩
    subst heq
    rw [pathFT, if_neg h1, if_neg h2, if_neg h3, lcaC_self, chainUpTo_self hf]

/-- REVISION_PATH: a revert list and an apply list, both stored upwards
(child-to-parent). -/
structure RevPath (α : Type) where
  revert : List α
  apply : List α
deriving DecidableEq, Repr

/-- REVISION_PATH::RevertSequence: the revert list in stored order. -/
def RevPath.revertSequence {α : Type} (p : RevPath α) : List α := p.revert

/-- REVISION_PATH::ApplySequence: the apply list traversed through
reverse iterators, i.e. in parent-to-child order. -/
def RevPath.applySequence {α : Type} (p : RevPath α) : List α := p.apply.reverse

/-- REVISION_PATH::Size: `m_revert.size() + m_apply.size()`. -/
def RevPath.size {α : Type} (p : RevPath α) : Nat :=
  p.revert.length + p.apply.length

/-- The REVISION_PATH built by the free-standing Path function. -/
def mkPathFT (f t : RevC) : RevPath RevC := ⟨(pathFT f t).1, (pathFT f t).2⟩

/-- C3: the free-standing Path(F, T).  For revisions F and T sharing a
root, the revert list is exactly the revisions from F up to (excluding)
the lowest common ancestor (the longest common suffix of the ancestor
chains) in child-to-parent order; the apply list is exactly the revisions
from T up to (excluding) that ancestor; the apply sequence (reverse
iteration) yields them in parent-to-child order for application; and
Size() is the sum of the two list lengths. -/
theorem path_between_revisions_spec (f t : RevC) (hf : f ≠ []) (ht : t ≠ [])
    (hroot : f.getLast? = t.getLast?) :
    (mkPathFT f t).revert = chainUpTo f (lcaC f t)
    ∧ (mkPathFT f t).apply = chainUpTo t (lcaC f t)
    ∧ (mkPathFT f t).applySequence = (chainUpTo t (lcaC f t)).reverse
    ∧ (mkPathFT f t).size
        = (chainUpTo f (lcaC f t)).length + (chainUpTo t (lcaC f t)).length := by
  have h := path_lca_spec f t hf ht hroot
  have h1 : (pathFT f t).1 = chainUpTo f (lcaC f t) := by rw [h]
  have h2 : (pathFT f t).2 = chainUpTo t (lcaC f t) := by rw [h]
  refine ⟨h1, h2, ?_, ?_⟩
  · unfold RevPath.applySequence mkPathFT
    rw [h2]
  · unfold RevPath.size mkPathFT
    rw [h1, h2]

theorem path_between_revisions_spec_witness :
    (mkPathFT [2, 1, 0] [3, 0]).revert = chainUpTo [2, 1, 0] (lcaC [2, 1, 0] [3, 0])
    ∧ (mkPathFT [2, 1, 0] [3, 0]).apply = chainUpTo [3, 0] (lcaC [2, 1, 0] [3, 0])
    ∧ (mkPathFT [2, 1, 0] [3, 0]).applySequence
        = (chainUpTo [3, 0] (lcaC [2, 1, 0] [3, 0])).reverse
    ∧ (mkPathFT [2, 1, 0] [3, 0]).size
        = (chainUpTo [2, 1, 0] (lcaC [2, 1, 0] [3, 0])).length
          + (chainUpTo [3, 0] (lcaC [2, 1, 0] [3, 0])).length :=
  path_between_revisions_spec [2, 1, 0] [3, 0] (by decide) (by decide) (by decide)

/-! ### CHANGE_SET and the two FromPath implementations (C4) -/

/-- A revision's deltas as item-id lists, as read by CHANGE_SET. -/
structure RevD where
  addedI : List Nat
  removedI : List Nat
deriving DecidableEq, Repr

/-- CHANGE_SET: non-owning aggregated (added, removed) item-id lists. -/
structure CSet where
  addedI : List Nat
  removedI : List Nat
deriving DecidableEq, Repr

/-- CHANGE_SET::Add: cancel a pending removal, or append an addition. -/
def csAdd (c : CSet) (x : Nat) : CSet :=
  if x ∈ c.removedI then { c with removedI := c.removedI.erase x }
  else { c with addedI := c.addedI ++ [x] }

/-- CHANGE_SET::Remove: cancel a pending addition, or append a removal. -/
def csRemove (c : CSet) (x : Nat) : CSet :=
  if x ∈ c.addedI then { c with addedI := c.addedI.erase x }
  else { c with removedI := c.removedI ++ [x] }

/-- CHANGE_SET::Apply(REVISION): Add each added item, then Remove each
removed item. -/
def csApply (c : CSet) (r : RevD) : CSet :=
  r.removedI.foldl csRemove (r.addedI.foldl csAdd c)

/-- CHANGE_SET::Revert(REVISION): Remove each added item, then Add back
each removed item. -/
def csRevert (c : CSet) (r : RevD) : CSet :=
  r.removedI.foldl csAdd (r.addedI.foldl csRemove c)

/-- The earlier CHANGE_SET::FromPath (first, superseded half of
`pns_revision.cpp`): iterates the raw path in stored order Apply-ing every
revision and never reverting (the reversed `copy` it builds is dead
code — the loop runs over `aPath`). -/
def fromPathOld (p : List RevD) : CSet :=
  p.foldl csApply ⟨[], []⟩

/-- The corrected CHANGE_SET::FromPath: Revert every revision of the
revert sequence in order, then Apply every revision of the apply sequence
(parent-to-child order). -/
def fromPathNew (p : RevPath RevD) : CSet :=
  p.applySequence.foldl csApply (p.revertSequence.foldl csRevert ⟨[], []⟩)

section C4Data

def c4r1 : RevD := ⟨[1], []⟩

def c4r2 : RevD := ⟨[2], []⟩

/-- A cross-branch path: revert revision r1 (which added item 1), then
apply revision r2 (which added item 2). -/
def c4path : RevPath RevD := ⟨[c4r1], [c4r2]⟩

end C4Data

/-- C4: the two implementations of CHANGE_SET::FromPath are not
equivalent.  On the cross-branch path `c4path` (non-empty revert and
apply lists), the earlier version — applying each revision of the raw
path in stored order, never reverting — yields a different (added,
removed) change set from the corrected version, whichever stored order
the raw path uses: the corrected version records item 1 as removed and
item 2 as added, while the old version reports both items as added. -/
theorem fromPath_implementations_differ :
    c4path.revert ≠ [] ∧ c4path.apply ≠ []
    ∧ fromPathOld (c4path.revert ++ c4path.apply) ≠ fromPathNew c4path
    ∧ fromPathOld (c4path.apply ++ c4path.revert) ≠ fromPathNew c4path
    ∧ fromPathNew c4path = ⟨[2], [1]⟩
    ∧ fromPathOld (c4path.revert ++ c4path.apply) = ⟨[1, 2], []⟩ := by
  refine ⟨by decide, by decide, by decide, by decide, by decide, by decide⟩

end PNSModel
